import Mathlib

/-!
# Verification of the bazuka ledger core (`src/blockchain/mod.rs`)

This development shallowly embeds the ledger core of the repository:
the typed key/value store, the RAM-mirror overlay, the transaction
applier `apply_tx`, the block applier `apply_block` with its rollback
journal, `rollback_block`, the fork-choice predicate `will_extend`, the
chain extender `extend`, and the query functions `get_account`,
`get_height`, `get_block`, `get_power` and `pow_key`.

Machine integers are embedded as `Nat` with explicit `% 2^64`
(resp. `% 2^32`) at the operations where Rust's release-mode wrapping
semantics can fire.  Stored values are a universal S-expression type
`Val` standing for the canonical byte encoding of §4.B of the spec;
a store is an association list sorted strictly by an injective key code,
so that equality of stores is exactly byte-identity of the underlying
key/value contents.

The `db` and `config` modules of the repository are not part of the
given sources; their behaviour (`get`/`update`/`rollback_of`, the RAM
mirror and the configuration constants) is modelled from §4.A, §4.E and
§6 of the spec, and each such definition is marked `Modelled from the
spec:` in its doc comment.
-/

namespace Bazuka

/-- Universal value type: stands for the canonical deterministic byte
encoding (§4.B) of every entity the core stores or hashes. -/
inductive Val where
  | vnat : Nat → Val
  | vnil : Val
  | vcons : Val → Val → Val
deriving DecidableEq, Repr

/-- `Address`: `Treasury` or a public key (the key material is opaque to
the core and embedded as a `Nat`). -/
inductive Address where
  | treasury : Address
  | publicKey : Nat → Address
deriving DecidableEq, Repr

/-- Numeric code of an address, used to order store keys. -/
def Address.code : Address → Nat
  | .treasury => 0
  | .publicKey pk => pk + 1

/-- The persistent key space of §3: `height`, `block_{i}`, `merkle_{i}`,
`rollback_{i}`, `power_{i}` and `account_{addr}`.  The fixed-width
decimal formatting of the Rust keys is injective, so the structured key
type is a faithful model of the string keys. -/
inductive SKey where
  | height : SKey
  | block : Nat → SKey
  | merkle : Nat → SKey
  | rollback : Nat → SKey
  | power : Nat → SKey
  | account : Address → SKey
deriving DecidableEq, Repr

/-- Injective numeric code of a store key (used to keep stores sorted,
mirroring the lexicographic order of the Rust string keys). -/
def SKey.code : SKey → Nat
  | .height => Nat.pair 0 0
  | .block n => Nat.pair 1 n
  | .merkle n => Nat.pair 2 n
  | .rollback n => Nat.pair 3 n
  | .power n => Nat.pair 4 n
  | .account a => Nat.pair 5 a.code

/-- A write operation of the KV batch interface (§4.A).
Modelled from the spec: `WriteOp` is `Put(key, value) | Remove(key)`. -/
inductive WOp where
  | put : SKey → Val → WOp
  | remove : SKey → WOp
deriving DecidableEq, Repr

/-- The key an operation touches. -/
def WOp.key : WOp → SKey
  | .put k _ => k
  | .remove k => k

/-- The value a write operation installs: `some` for a put, `none` for
a remove. -/
def WOp.val? : WOp → Option Val
  | .put _ v => some v
  | .remove _ => none

/-- The net effect of a batch on a single key, starting from the key's
current value. -/
def opsVal (ops : List WOp) (k : SKey) (x : Option Val) : Option Val :=
  ops.foldl (fun cur op => if op.key = k then op.val? else cur) x

/-- Batches that only touch `account_*` keys (those `apply_tx`
produces). -/
def opsAccount (ops : List WOp) : Prop := ∀ op ∈ ops, ∃ a, op.key = .account a

/-- The backing store: an association list sorted strictly by key code;
list equality is byte-identity of store contents. -/
abbrev Store := List (SKey × Val)

/-- Modelled from the spec: `get(key) -> Option<Bytes>` of the KV store
(§4.A) — first association-list lookup. -/
def kget : Store → SKey → Option Val
  | [], _ => none
  | (k', v) :: t, k => if k = k' then some v else kget t k

/-- Insert-or-replace at the sorted position. -/
def sput : Store → SKey → Val → Store
  | [], k, v => [(k, v)]
  | (k', v') :: t, k, v =>
    if k.code < k'.code then (k, v) :: (k', v') :: t
    else if k = k' then (k, v) :: t
    else (k', v') :: sput t k v

/-- Delete every entry with the given key. -/
def sdel : Store → SKey → Store
  | [], _ => []
  | (k', v) :: t, k => if k = k' then sdel t k else (k', v) :: sdel t k

/-- Apply one write operation to the backing store. -/
def applyOp (s : Store) : WOp → Store
  | .put k v => sput s k v
  | .remove k => sdel s k

/-- Modelled from the spec: `update(batch)` of the KV store (§4.A) —
the batch is applied atomically, in order. -/
def kupdate (s : Store) (ops : List WOp) : Store :=
  ops.foldl applyOp s

/-- The single journal entry inverting one write against the current
lookup function `get`. -/
def invOp (get : SKey → Option Val) (op : WOp) : WOp :=
  match get op.key with
  | some v => WOp.put op.key v
  | none => WOp.remove op.key

/-- Modelled from the spec: `rollback_of(batch)` (§4.A) — for each
touched key read its current value; produce a `Put` with that prior
value, or a `Remove` if the key is absent. -/
def rollbackOfG (get : SKey → Option Val) (ops : List WOp) : List WOp :=
  ops.map (fun op =>
    match get op.key with
    | some v => WOp.put op.key v
    | none => WOp.remove op.key)

/-- Sortedness invariant of a backing store: key codes strictly
increase, so every key occurs at most once. -/
def SSorted (s : Store) : Prop :=
  s.Pairwise (fun a b => a.1.code < b.1.code)

instance : DecidablePred SSorted := fun s =>
  List.instDecidablePairwise s

/-- A pending overlay entry of the RAM mirror: a `Put` value or a
tombstone shadowing the backing store. -/
inductive OvEntry where
  | oput : Val → OvEntry
  | oremove : OvEntry
deriving DecidableEq, Repr

/-- Modelled from the spec: the RAM mirror (§4.A) — a read-only backing
KV plus an in-memory map of pending ops, kept sorted by key code so that
`to_ops` is deterministic. -/
structure Mirror (σ : Type) where
  base : σ
  overlay : List (SKey × OvEntry)
deriving Repr

/-- Insert-or-replace into the overlay map. -/
def oinsert : List (SKey × OvEntry) → SKey → OvEntry → List (SKey × OvEntry)
  | [], k, e => [(k, e)]
  | (k', e') :: t, k, e =>
    if k.code < k'.code then (k, e) :: (k', e') :: t
    else if k = k' then (k, e) :: t
    else (k', e') :: oinsert t k e

/-- Overlay lookup. -/
def olookup : List (SKey × OvEntry) → SKey → Option OvEntry
  | [], _ => none
  | (k', e) :: t, k => if k = k' then some e else olookup t k

/-- The KV capability set the core is parameterised over (§9 design
notes): `get` and atomic `update`. -/
class KV (σ : Type) where
  get : σ → SKey → Option Val
  update : σ → List WOp → σ

instance : KV Store where
  get := kget
  update := kupdate

/-- Modelled from the spec: mirror `get` consults the overlay first,
then the backing store; a `Remove` tombstone shadows the base (§4.A). -/
def mget [KV σ] (m : Mirror σ) (k : SKey) : Option Val :=
  match olookup m.overlay k with
  | some (.oput v) => some v
  | some .oremove => none
  | none => KV.get m.base k

/-- Record one pending write in the overlay map. -/
def ovStep (ov : List (SKey × OvEntry)) (op : WOp) : List (SKey × OvEntry) :=
  match op with
  | .put k v => oinsert ov k (.oput v)
  | .remove k => oinsert ov k .oremove

/-- Modelled from the spec: mirror `update` appends the batch to the
overlay map (§4.A). -/
def mupdate [KV σ] (m : Mirror σ) (ops : List WOp) : Mirror σ :=
  { m with overlay := ops.foldl ovStep m.overlay }

instance [KV σ] : KV (Mirror σ) where
  get := mget
  update := mupdate

/-- A fresh RAM fork of a store (`fork_on_ram`). -/
def mkMirror (s : σ) : Mirror σ := ⟨s, []⟩

/-- Overlays built by the per-transaction loop only hold `account_*`
keys. -/
def ovAccount (ov : List (SKey × OvEntry)) : Prop :=
  ∀ kv ∈ ov, ∃ a, kv.1 = SKey.account a

/-- Modelled from the spec: `to_ops()` returns the accumulated overlay
batch for later atomic commit (§4.A). -/
def toOps (m : Mirror σ) : List WOp :=
  m.overlay.map (fun ke =>
    match ke.2 with
    | .oput v => WOp.put ke.1 v
    | .oremove => WOp.remove ke.1)

/-! ## Core entities (`core/mod.rs`) -/

/-- `Signature`: `Unsigned | Signed(bytes)`; the signature bytes are
opaque and embedded as a `Nat`. -/
inductive Sig where
  | unsigned : Sig
  | signed : Nat → Sig
deriving DecidableEq, Repr

/-- `TransactionData`: only `RegularSend` is implemented by `apply_tx`;
every other variant of the Rust enum hits `unimplemented!()` and is
collapsed into the single constructor `otherTx`. -/
inductive TxData where
  | regularSend : Address → Nat → TxData
  | otherTx : Nat → TxData
deriving DecidableEq, Repr

/-- `Transaction { src, nonce, data, fee, sig }` (`core/mod.rs`). -/
structure Transaction where
  src : Address
  nonce : Nat
  data : TxData
  fee : Nat
  sig : Sig
deriving DecidableEq, Repr

/-- `Account { balance: Money, nonce: u32 }` (`core/mod.rs`). -/
structure Account where
  balance : Nat
  nonce : Nat
deriving DecidableEq, Repr

/-- `ProofOfWork { timestamp, target, nonce }` of a header (§3). -/
structure PoW where
  timestamp : Nat
  target : Nat
  nonce : Nat
deriving DecidableEq, Repr

/-- `Header { number, parent_hash, block_root, proof_of_work }` (§3);
hashes are `Val`s (the canonical encoding stands in for the SHA3-256
digest, see `headerHash`). -/
structure Header where
  number : Nat
  parent_hash : Val
  block_root : Val
  pow : PoW
deriving DecidableEq, Repr

/-- `Block { header, body }` (§3). -/
structure Blk where
  header : Header
  body : List Transaction
deriving DecidableEq, Repr

/-! ## Canonical encoding (§4.B)

Modelled from the spec: the `db` serialization layer is not part of the
given sources.  Every entity gets a deterministic `Val` encoding;
decoders enforce the integer widths a Rust deserializer would. -/

/-- Modelled from the spec: `TOTAL_SUPPLY` config constant (the whole
money supply sits in the implicit Treasury account at genesis). -/
def TOTAL_SUPPLY : Nat := 2000000000000000000

/-- Modelled from the spec: the fixed base PoW key `POW_BASE_KEY`. -/
def POW_BASE_KEY : Val := .vnat 0

/-- Modelled from the spec: `POW_KEY_CHANGE_DELAY` config constant. -/
def POW_KEY_CHANGE_DELAY : Nat := 64

/-- Modelled from the spec: `POW_KEY_CHANGE_INTERVAL` config constant. -/
def POW_KEY_CHANGE_INTERVAL : Nat := 64

/-- Encoding of an address. -/
def encAddr : Address → Val
  | .treasury => .vnat 0
  | .publicKey pk => .vcons (.vnat 1) (.vnat pk)

def decAddr : Val → Option Address
  | .vnat 0 => some .treasury
  | .vcons (.vnat 1) (.vnat pk) => some (.publicKey pk)
  | _ => none

/-- Encoding of a `u64` value (height / power). -/
def encNat (n : Nat) : Val := .vnat n

/-- Decoding of a `u64` value: a Rust deserializer can only produce
values below `2^64`. -/
def decNat : Val → Option Nat
  | .vnat n => if n < 2 ^ 64 then some n else none
  | _ => none

/-- Encoding of an account. -/
def encAccount (a : Account) : Val := .vcons (.vnat a.balance) (.vnat a.nonce)

/-- Decoding of an account (`balance: u64`, `nonce: u32`). -/
def decAccount : Val → Option Account
  | .vcons (.vnat b) (.vnat n) =>
    if b < 2 ^ 64 ∧ n < 2 ^ 32 then some ⟨b, n⟩ else none
  | _ => none

/-- Encoding of a store key (stands for the `format!` string key). -/
def encKey : SKey → Val
  | .height => .vcons (.vnat 0) .vnil
  | .block n => .vcons (.vnat 1) (.vnat n)
  | .merkle n => .vcons (.vnat 2) (.vnat n)
  | .rollback n => .vcons (.vnat 3) (.vnat n)
  | .power n => .vcons (.vnat 4) (.vnat n)
  | .account a => .vcons (.vnat 5) (encAddr a)

def decKey : Val → Option SKey
  | .vcons (.vnat 0) .vnil => some .height
  | .vcons (.vnat 1) (.vnat n) => some (.block n)
  | .vcons (.vnat 2) (.vnat n) => some (.merkle n)
  | .vcons (.vnat 3) (.vnat n) => some (.rollback n)
  | .vcons (.vnat 4) (.vnat n) => some (.power n)
  | .vcons (.vnat 5) a => (decAddr a).map .account
  | _ => none

/-- Encoding of one write operation (journal entry element). -/
def encOp : WOp → Val
  | .put k v => .vcons (.vnat 0) (.vcons (encKey k) v)
  | .remove k => .vcons (.vnat 1) (encKey k)

def decOp : Val → Option WOp
  | .vcons (.vnat 0) (.vcons k v) => (decKey k).map (fun k' => .put k' v)
  | .vcons (.vnat 1) k => (decKey k).map .remove
  | _ => none

/-- Encoding of a journal entry (`Vec<WriteOp>`). -/
def encOps : List WOp → Val
  | [] => .vnil
  | op :: t => .vcons (encOp op) (encOps t)

def decOps : Val → Option (List WOp)
  | .vnil => some []
  | .vcons h t => do
    let op ← decOp h
    let rest ← decOps t
    some (op :: rest)
  | _ => none

/-- Encoding of a signature. -/
def encSig : Sig → Val
  | .unsigned => .vnat 0
  | .signed s => .vcons (.vnat 1) (.vnat s)

def decSig : Val → Option Sig
  | .vnat 0 => some .unsigned
  | .vcons (.vnat 1) (.vnat s) => some (.signed s)
  | _ => none

/-- Encoding of transaction data. -/
def encTxData : TxData → Val
  | .regularSend dst amount => .vcons (.vnat 0) (.vcons (encAddr dst) (.vnat amount))
  | .otherTx n => .vcons (.vnat 1) (.vnat n)

def decTxData : Val → Option TxData
  | .vcons (.vnat 0) (.vcons dst (.vnat amount)) =>
    (decAddr dst).map (fun d => .regularSend d amount)
  | .vcons (.vnat 1) (.vnat n) => some (.otherTx n)
  | _ => none

/-- Encoding of a transaction (the bincode serialization pre-image). -/
def encTx (t : Transaction) : Val :=
  .vcons (encAddr t.src)
    (.vcons (.vnat t.nonce)
      (.vcons (encTxData t.data)
        (.vcons (.vnat t.fee) (encSig t.sig))))

def decTx : Val → Option Transaction
  | .vcons src (.vcons (.vnat nonce) (.vcons data (.vcons (.vnat fee) sig))) => do
    let s ← decAddr src
    let d ← decTxData data
    let sg ← decSig sig
    some ⟨s, nonce, d, fee, sg⟩
  | _ => none

/-- Encoding of a header. -/
def encHeader (h : Header) : Val :=
  .vcons (.vnat h.number)
    (.vcons h.parent_hash
      (.vcons h.block_root
        (.vcons (.vnat h.pow.timestamp)
          (.vcons (.vnat h.pow.target) (.vnat h.pow.nonce)))))

def decHeader : Val → Option Header
  | .vcons (.vnat n) (.vcons ph (.vcons br (.vcons (.vnat ts) (.vcons (.vnat tg) (.vnat nn))))) =>
    some ⟨n, ph, br, ⟨ts, tg, nn⟩⟩
  | _ => none

/-- Encoding of a transaction list. -/
def encTxs : List Transaction → Val
  | [] => .vnil
  | t :: r => .vcons (encTx t) (encTxs r)

def decTxs : Val → Option (List Transaction)
  | .vnil => some []
  | .vcons h t => do
    let tx ← decTx h
    let rest ← decTxs t
    some (tx :: rest)
  | _ => none

/-- Encoding of a block. -/
def encBlock (b : Blk) : Val := .vcons (encHeader b.header) (encTxs b.body)

def decBlock : Val → Option Blk
  | .vcons h t => do
    let hd ← decHeader h
    let body ← decTxs t
    some ⟨hd, body⟩
  | _ => none

/-! ## Hashing, Merkle trees and PoW (§4.B, §4.E)

Modelled from the spec: SHA3-256 internals are out of scope (§1); the
hash of an entity is embedded as its canonical encoding, which is
deterministic and collision-free, exactly the contract §4.B pins. -/

/-- Modelled from the spec: `hash(header)` — the canonical encoding
stands in for the SHA3-256 digest. -/
def headerHash (h : Header) : Val := encHeader h

/-- Modelled from the spec: `hash(tx)`, the Merkle leaf of §4.B. -/
def txHash (t : Transaction) : Val := encTx t

/-- Pair up one Merkle level, duplicating the last element of an
odd-count level (§4.B). -/
def pairUp : List Val → List Val
  | [] => []
  | [x] => [.vcons x x]
  | x :: y :: rest => .vcons x y :: pairUp rest

/-- Fold a Merkle level list down to the root (§4.B): internal nodes
are the hash (encoding pair) of their children; the root of an empty
body is the hash of the empty string.  Each step at least halves the
level, so a fuel of the initial length always suffices; the recursion
is on fuel to stay structurally recursive. -/
def merkleRootAux : Nat → List Val → Val
  | _, [] => .vnil
  | _, [x] => x
  | 0, _ :: _ :: _ => .vnil
  | fuel + 1, x :: y :: rest => merkleRootAux fuel (Val.vcons x y :: pairUp rest)

/-- Modelled from the spec: `block.merkle_tree().root()` (§4.B). -/
def merkleRoot (txs : List Transaction) : Val :=
  merkleRootAux txs.length (txs.map txHash)

/-- An injective numeric code of a value, used by the modelled hash
mixing below. -/
def valToNat : Val → Nat
  | .vnat n => Nat.pair 0 n
  | .vnil => Nat.pair 1 0
  | .vcons a b => Nat.pair 2 (Nat.pair (valToNat a) (valToNat b))

/-- Modelled from the spec: the PoW evaluation hash of a header under a
PoW key — a deterministic mixing of the key and the header encoding. -/
def powEvalHash (h : Header) (key : Val) : Nat :=
  valToNat (.vcons key (encHeader h)) % 2 ^ 64

/-- Modelled from the spec: `header.meets_target(key)` — the PoW hash
beats the difficulty target. -/
def meetsTarget (h : Header) (key : Val) : Bool :=
  powEvalHash h key ≤ h.pow.target

/-- Modelled from the spec: `header.power(key)` — a monotone measure of
how deeply the PoW hash beats the target (§4.E). -/
def headerPower (h : Header) (key : Val) : Nat :=
  h.pow.target + 1 - powEvalHash h key

/-- Modelled from the spec: `EdDSA::verify` (§6) — a signature is valid
exactly when it is the canonical signature of the pre-image (the
transaction with its `sig` field reset to `Unsigned`) under the key. -/
def sigVerify (pk : Nat) (msg : Val) (s : Nat) : Bool :=
  s = Nat.pair pk (valToNat msg)

/-- `Transaction::verify_signature` (`core/mod.rs`): `Treasury` sources
bypass verification; otherwise the signature is checked against the
encoding of the transaction with `sig := Unsigned`. -/
def verifySignature (t : Transaction) : Bool :=
  match t.src with
  | .treasury => true
  | .publicKey pk =>
    match t.sig with
    | .unsigned => false
    | .signed s => sigVerify pk (encTx { t with sig := .unsigned }) s

/-! ## The blockchain operations (`blockchain/mod.rs`) -/

/-- `BlockchainError` (`blockchain/mod.rs` lines 9–35).  `KvStoreError`
also covers value-decoding failures (`b.try_into()?`), as in the Rust
`From<KvStoreError>` conversion.  `TxUnimplemented` models the
`unimplemented!()` panic on non-`RegularSend` data: the process aborts
with zero store writes, embedded as a dedicated error. -/
inductive BErr where
  | KvStoreError | SignatureError | BalanceInsufficient | Inconsistency
  | BlockNotFound | ExtendFromGenesis | ExtendFromFuture
  | InvalidBlockNumber | InvalidParentHash | InvalidMerkleRoot
  | InvalidTransactionNonce | DifficultyTargetUnmet | TxUnimplemented
deriving DecidableEq, Repr

/-- `get_height` (lines 330–335): decode the `height` key, defaulting
to 0 when absent. -/
def getHeight [KV σ] (s : σ) : Except BErr Nat :=
  match KV.get s .height with
  | some v =>
    match decNat v with
    | some n => .ok n
    | none => .error .KvStoreError
  | none => .ok 0

/-- `get_account` (lines 250–263): decode the account key, or
synthesise the implicit account — `TOTAL_SUPPLY` for `Treasury`, zero
otherwise. -/
def getAccount [KV σ] (s : σ) (addr : Address) : Except BErr Account :=
  match KV.get s (.account addr) with
  | some v =>
    match decAccount v with
    | some a => .ok a
    | none => .error .KvStoreError
  | none => .ok ⟨if addr = .treasury then TOTAL_SUPPLY else 0, 0⟩

/-- `get_block` (lines 98–109). -/
def getBlock [KV σ] (s : σ) (index : Nat) : Except BErr Blk := do
  let h ← getHeight s
  if index ≥ h then .error .BlockNotFound
  else
    match KV.get s (.block index) with
    | some v =>
      match decBlock v with
      | some b => .ok b
      | none => .error .KvStoreError
    | none => .error .Inconsistency

/-- `get_power` (lines 388–399). -/
def getPower [KV σ] (s : σ) : Except BErr Nat := do
  let h ← getHeight s
  if h = 0 then .ok 0
  else
    match KV.get s (.power (h - 1)) with
    | some v =>
      match decNat v with
      | some n => .ok n
      | none => .error .KvStoreError
    | none => .error .Inconsistency

/-- `pow_key` (lines 401–411): the fixed base key below index 64,
otherwise the header hash of the reference block. -/
def powKey [KV σ] (s : σ) (index : Nat) : Except BErr Val :=
  if index < 64 then .ok POW_BASE_KEY
  else
    (getBlock s ((index - POW_KEY_CHANGE_DELAY) / POW_KEY_CHANGE_INTERVAL
        * POW_KEY_CHANGE_INTERVAL)).map
      (fun b => headerHash b.header)

/-- `apply_tx` (lines 111–152).  Arithmetic is Rust release-mode `u64` /
`u32` wrapping, written with explicit `% 2^64` / `% 2^32`; the single
`update` commits both puts atomically. -/
def applyTx [KV σ] (s : σ) (tx : Transaction) : Except BErr σ :=
  if ¬ verifySignature tx then .error .SignatureError
  else
    match tx.data with
    | .regularSend dst amount => do
      let accSrc ← getAccount s tx.src
      if tx.nonce ≠ (accSrc.nonce + 1) % 2 ^ 32 then .error .InvalidTransactionNonce
      else if accSrc.balance < (amount + tx.fee) % 2 ^ 64 then .error .BalanceInsufficient
      else
        let debit := ((if dst ≠ tx.src then amount else 0) + tx.fee) % 2 ^ 64
        let accSrc' : Account :=
          ⟨(accSrc.balance + 2 ^ 64 - debit) % 2 ^ 64, (accSrc.nonce + 1) % 2 ^ 32⟩
        if _hd : dst ≠ tx.src then do
          let accDst ← getAccount s dst
          let accDst' : Account := ⟨(accDst.balance + amount) % 2 ^ 64, accDst.nonce⟩
          .ok (KV.update s
            [.put (.account tx.src) (encAccount accSrc'),
             .put (.account dst) (encAccount accDst')])
        else
          .ok (KV.update s [.put (.account tx.src) (encAccount accSrc')])
    | .otherTx _ => .error .TxUnimplemented

/-- `rollback_block` (lines 154–170): load the journal entry of the
last block, execute it plus the removals of the block, merkle and
journal keys in one atomic batch.  `height - 1` is `usize` wrapping
subtraction. -/
def rollbackBlock [KV σ] (s : σ) : Except BErr σ := do
  let h ← getHeight s
  let idx := (h + (2 ^ 64 - 1)) % 2 ^ 64
  match KV.get s (.rollback idx) with
  | some v =>
    match decOps v with
    | some rb =>
      .ok (KV.update s
        (rb ++ [.remove (.block idx), .remove (.merkle idx), .remove (.rollback idx)]))
    | none => .error .KvStoreError
  | none => .error .Inconsistency

/-- The per-transaction loop of `apply_block` (lines 218–220), run on
the RAM fork. -/
def applyTxsFork [KV σ] : List Transaction → Mirror σ → Except BErr (Mirror σ)
  | [], m => .ok m
  | t :: ts, m => do applyTxsFork ts (← applyTx m t)

/-- The header validation block of `apply_block` (lines 194–215): PoW
target (strict mode only), block number, parent hash and Merkle root,
checked only above genesis height. -/
def blockChecks [KV σ] (s : σ) (b : Blk) (draft : Bool) (h : Nat) (key : Val) :
    Except BErr Unit :=
  if h > 0 then do
    let last ← getBlock s (h - 1)
    if draft = false ∧ ¬ meetsTarget b.header key then .error .DifficultyTargetUnmet
    else if b.header.number ≠ h then .error .InvalidBlockNumber
    else if b.header.parent_hash ≠ headerHash last.header then .error .InvalidParentHash
    else if b.header.block_root ≠ merkleRoot b.body then .error .InvalidMerkleRoot
    else .ok ()
  else .ok ()

/-- The batch `apply_block` builds before appending the journal entry
(lines 221–229): the fork's pending ops, the `height` bump and the new
cumulative-power entry. -/
def blockChangesPrefix (b : Blk) (key : Val) (h cp : Nat) (fork : Mirror σ) :
    List WOp :=
  toOps fork ++
    [.put .height (encNat ((h + 1) % 2 ^ 64)),
     .put (.power b.header.number) (encNat ((headerPower b.header key + cp) % 2 ^ 64))]

/-- The full commit batch of `apply_block` (lines 221–242): the prefix,
then the journal entry (the inverse of the prefix against the current
store), then the block and merkle entries. -/
def blockChangesAll [KV σ] (s : σ) (b : Blk) (key : Val) (h cp : Nat)
    (fork : Mirror σ) : List WOp :=
  (blockChangesPrefix b key h cp fork ++
    [.put (.rollback b.header.number)
      (encOps (rollbackOfG (KV.get s) (blockChangesPrefix b key h cp fork)))]) ++
  [.put (.block b.header.number) (encBlock b),
   .put (.merkle b.header.number) (merkleRoot b.body)]

/-- `apply_block` (lines 188–246): validate, execute the body on a RAM
fork, then commit the fork's ops plus the height, power, journal, block
and merkle entries as one atomic batch.  The journal entry is the
inverse (`rollback_of`) of the batch built so far, computed against the
current store. -/
def applyBlock [KV σ] (s : σ) (b : Blk) (draft : Bool) : Except BErr σ := do
  let h ← getHeight s
  let key ← powKey s b.header.number
  let _ ← blockChecks s b draft h key
  let fork ← applyTxsFork b.body (mkMirror s)
  let cp ← getPower s
  .ok (KV.update s (blockChangesAll s b key h cp fork))

/-- The header loop of `will_extend` (lines 286–303): check PoW,
number succession and parent linkage, accumulating power with `u64`
wrapping addition. -/
def willExtendLoop [KV σ] (s : σ) : List Header → Header → Nat → Except BErr Nat
  | [], _, np => .ok np
  | hd :: tl, last, np => do
    let key ← powKey s hd.number
    if ¬ meetsTarget hd key then .error .DifficultyTargetUnmet
    else if hd.number ≠ (last.number + 1) % 2 ^ 64 then .error .InvalidBlockNumber
    else if hd.parent_hash ≠ headerHash last then .error .InvalidParentHash
    else willExtendLoop s tl hd ((np + headerPower hd key) % 2 ^ 64)

/-- `will_extend` (lines 270–306): a pure fork-choice predicate — it
reads the current power, rejects genesis and future forks, walks the
offered headers and compares the accumulated power against the current
cumulative power. -/
def willExtend [KV σ] (s : σ) (frm : Nat) (headers : List Header) :
    Except BErr Bool := do
  let currentPower ← getPower s
  if frm = 0 then .error .ExtendFromGenesis
  else do
    let h ← getHeight s
    if frm > h then .error .ExtendFromFuture
    else do
      let np0 ←
        match KV.get s (.power (frm - 1)) with
        | some v =>
          match decNat v with
          | some n => Except.ok n
          | none => Except.error BErr.KvStoreError
        | none => Except.error BErr.Inconsistency
      let lastB ← getBlock s (frm - 1)
      let np ← willExtendLoop s headers lastB.header np0
      .ok (np > currentPower)

/-- The rollback loop of `extend` (lines 318–320), run on the RAM fork.
The `while` loop is embedded with fuel; exhaustion (a journal that never
lowers the height, i.e. a non-terminating Rust loop) is mapped to
`Inconsistency`. -/
def rollbackWhile [KV σ] : Nat → Nat → σ → Except BErr σ
  | 0, frm, s => do
    let h ← getHeight s
    if h > frm then .error .Inconsistency else .ok s
  | fuel + 1, frm, s => do
    let h ← getHeight s
    if h > frm then do
      let s' ← rollbackBlock s
      rollbackWhile fuel frm s'
    else .ok s

/-- The block loop of `extend` (lines 322–324): strict application of
each offered block on the fork. -/
def applyBlocks [KV σ] : List Blk → σ → Except BErr σ
  | [], s => .ok s
  | b :: bs, s => do applyBlocks bs (← applyBlock s b false)

/-- `extend` (lines 307–329): check the `from` preconditions, fork the
store in RAM, roll the fork back to height `from`, strictly apply each
offered block, and commit the fork's accumulated ops in one atomic
batch.  No cumulative-power comparison happens here. -/
def extend [KV σ] (s : σ) (frm : Nat) (blocks : List Blk) : Except BErr σ := do
  let h ← getHeight s
  if frm = 0 then .error .ExtendFromGenesis
  else if frm > h then .error .ExtendFromFuture
  else do
    let forked ← rollbackWhile (h + 1) frm (mkMirror s)
    let forked2 ← applyBlocks blocks forked
    .ok (KV.update s (toOps forked2))

/-- `rollback_block` iterated `n` times on the real store. -/
def rollbackN : Nat → Store → Except BErr Store
  | 0, s => .ok s
  | n + 1, s => do rollbackN n (← rollbackBlock s)

/-- No `block`/`merkle`/`rollback` entry exists at or above the given
height — true of every store reachable from genesis, whose entries stop
strictly below the `height` counter. -/
def cleanAbove (S : Store) (h : Nat) : Prop :=
  ∀ j, h ≤ j →
    kget S (.block j) = none ∧ kget S (.merkle j) = none ∧
      kget S (.rollback j) = none

/-! ## Spec-side quantities (stated from the spec's words, to be
compared against the behaviour of the code) -/

/-- The balance an entry contributes to the account-balance sum:
decoded balance for `account_*` entries, zero otherwise. -/
def entryBal : SKey × Val → Nat :=
  fun kv =>
    match kv.1 with
    | .account _ =>
      match decAccount kv.2 with
      | some a => a.balance
      | none => 0
    | _ => 0

/-- The spec-side conserved quantity (§3, §8): the sum of all account
balances, including the implicit Treasury balance synthesised when the
Treasury key is absent. -/
def storeSupply (S : Store) : Nat :=
  (S.map entryBal).sum +
    (if kget S (.account .treasury) = none then TOTAL_SUPPLY else 0)

/-- Spec §4.E, one offered header: it passes the PoW check under
`pow_key(h.number)`, succeeds the previous number and links to the
previous header's hash. -/
def specHeaderOk [KV σ] (s : σ) (last hd : Header) : Bool :=
  match powKey s hd.number with
  | .ok key =>
    meetsTarget hd key && hd.number == last.number + 1 &&
      hd.parent_hash == headerHash last
  | .error _ => false

/-- Spec §4.E: every offered header passes the per-header checks,
walking `last_header` along the list. -/
def specHeadersOk [KV σ] (s : σ) : Header → List Header → Bool
  | _, [] => true
  | last, hd :: tl => specHeaderOk s last hd && specHeadersOk s hd tl

/-- Spec §4.E: the power accumulated over the offered headers on top of
`np`, with `u64` wrapping addition. -/
def specPowerFold [KV σ] (s : σ) : Nat → List Header → Nat
  | np, [] => np
  | np, hd :: tl =>
    specPowerFold s
      ((np +
        (match powKey s hd.number with
        | .ok key => headerPower hd key
        | .error _ => 0)) % 2 ^ 64) tl

/-! ## Concrete fixtures used by counterexamples and witnesses -/

/-- A block with number 0 and an empty body (a genesis-shaped block). -/
def genesisBlk : Blk := ⟨⟨0, .vnil, .vnil, ⟨0, 0, 0⟩⟩, []⟩

/-- A block with number 5 and an empty body. -/
def blkNum5 : Blk := ⟨⟨5, .vnil, .vnil, ⟨0, 0, 0⟩⟩, []⟩

/-- The store produced by applying `genesisBlk` to the empty store. -/
def genesisStore : Store :=
  [(.height, encNat 1),
   (.block 0, encBlock genesisBlk),
   (.merkle 0, merkleRoot ([] : List Transaction)),
   (.rollback 0, encOps [.remove .height, .remove (.power 0)]),
   (.power 0, encNat 0)]

/-- A fee-paying Treasury send (Treasury sources bypass signature
verification, as in `verify_signature`). -/
def feeTx : Transaction := ⟨.treasury, 1, .regularSend (.publicKey 7) 100, 5, .unsigned⟩

/-- A Treasury send whose `amount + fee` overflows `u64`. -/
def overflowTx : Transaction :=
  ⟨.treasury, 1, .regularSend (.publicKey 1) (2 ^ 64 - 1), 2, .unsigned⟩

/-- A Treasury self-send with `amount = 100`, `fee = 5`. -/
def selfTx : Transaction := ⟨.treasury, 1, .regularSend .treasury 100, 5, .unsigned⟩

/-- A Treasury send with a nonce one past the expected one. -/
def gapTx : Transaction := ⟨.treasury, 2, .regularSend (.publicKey 7) 100, 5, .unsigned⟩

/-- A height-1 chain store: one stored block and its power entry. -/
def chainStore1 : Store :=
  [(.height, encNat 1),
   (.block 0, encBlock genesisBlk),
   (.power 0, encNat 5)]

/-- A height-2 chain store whose journal entry for block 1 lowers the
height and drops the power entry; cumulative power is 9, power at
height 1 is 5. -/
def chainStore2 : Store :=
  [(.height, encNat 2),
   (.rollback 1, encOps [.put .height (encNat 1), .remove (.power 1)]),
   (.power 0, encNat 5),
   (.power 1, encNat 9)]

/-- The RAM fork of `chainStore2` after rolling back to height 1. -/
def chainStore2Fork : Mirror Store :=
  ⟨chainStore2,
   [(.height, .oput (encNat 1)),
    (.block 1, .oremove),
    (.merkle 1, .oremove),
    (.rollback 1, .oremove),
    (.power 1, .oremove)]⟩

/-- `chainStore2` after `extend(1, [])`: truncated to height 1. -/
def chainStore2Truncated : Store :=
  [(.height, encNat 1), (.power 0, encNat 5)]

/-! ## Store lemmas -/

theorem addressCode_inj : ∀ {a b : Address}, a.code = b.code → a = b := by
  intro a b h
  cases a <;> cases b <;> simp [Address.code] at h <;> simp [h]

theorem skeyCode_inj : ∀ {k l : SKey}, k.code = l.code → k = l := by
  intro k l h
  cases k <;> cases l <;>
    simp only [SKey.code, Nat.pair_eq_pair, true_and] at h <;>
    first
      | rfl
      | (exact absurd h.1 (by decide))
      | (exact absurd h (by decide))
      | (exact congrArg SKey.account (addressCode_inj h))
      | simp [h.2]
      | simp [h]

theorem SKey.code_eq_iff {k l : SKey} : k.code = l.code ↔ k = l :=
  ⟨skeyCode_inj, fun h => h ▸ rfl⟩

theorem opsVal_nil (k : SKey) (x : Option Val) : opsVal [] k x = x := rfl

theorem opsVal_cons (op : WOp) (ops : List WOp) (k : SKey) (x : Option Val) :
    opsVal (op :: ops) k x = opsVal ops k (if op.key = k then op.val? else x) := rfl

theorem opsVal_append (a b : List WOp) (k : SKey) (x : Option Val) :
    opsVal (a ++ b) k x = opsVal b k (opsVal a k x) := by
  simp [opsVal, List.foldl_append]

theorem opsVal_untouched {ops : List WOp} {k : SKey} (h : ∀ op ∈ ops, op.key ≠ k)
    (x : Option Val) : opsVal ops k x = x := by
  induction ops generalizing x with
  | nil => rfl
  | cons op t ih =>
    rw [opsVal_cons, if_neg (h op (List.mem_cons_self op t)), ih]
    intro o ho
    exact h o (List.mem_cons_of_mem op ho)

theorem kget_sput (s : Store) (k : SKey) (v : Val) (k' : SKey) :
    kget (sput s k v) k' = if k' = k then some v else kget s k' := by
  induction s with
  | nil => simp [sput, kget]
  | cons hd t ih =>
    obtain ⟨k1, v1⟩ := hd
    simp only [sput]
    by_cases h1 : k.code < k1.code
    · rw [if_pos h1]
      simp only [kget]
    · rw [if_neg h1]
      by_cases h2 : k = k1
      · subst h2
        rw [if_pos rfl]
        simp only [kget]
        by_cases h3 : k' = k <;> simp [h3]
      · rw [if_neg h2]
        simp only [kget, ih]
        by_cases h3 : k' = k1
        · subst h3
          rw [if_pos rfl, if_neg (fun h => h2 h.symm), if_pos rfl]
        · rw [if_neg h3, if_neg h3]

theorem kget_sdel (s : Store) (k : SKey) (k' : SKey) :
    kget (sdel s k) k' = if k' = k then none else kget s k' := by
  induction s with
  | nil => simp [sdel, kget]
  | cons hd t ih =>
    obtain ⟨k1, v1⟩ := hd
    simp only [sdel]
    by_cases h1 : k = k1
    · subst h1
      rw [if_pos rfl, ih]
      simp only [kget]
      by_cases h3 : k' = k
      · simp [h3]
      · rw [if_neg h3, if_neg h3, if_neg h3]
    · rw [if_neg h1]
      simp only [kget, ih]
      by_cases h3 : k' = k1
      · subst h3
        rw [if_pos rfl, if_neg (fun h => h1 h.symm), if_pos rfl]
      · rw [if_neg h3, if_neg h3]

theorem kget_applyOp (s : Store) (op : WOp) (k : SKey) :
    kget (applyOp s op) k = if op.key = k then op.val? else kget s k := by
  cases op with
  | put k1 v =>
    simp only [applyOp, WOp.key, WOp.val?, kget_sput]
    by_cases h : k = k1
    · subst h; simp
    · rw [if_neg h, if_neg fun hh => h hh.symm]
  | remove k1 =>
    simp only [applyOp, WOp.key, WOp.val?, kget_sdel]
    by_cases h : k = k1
    · subst h; simp
    · rw [if_neg h, if_neg fun hh => h hh.symm]

theorem kget_kupdate (s : Store) (ops : List WOp) (k : SKey) :
    kget (kupdate s ops) k = opsVal ops k (kget s k) := by
  induction ops generalizing s with
  | nil => rfl
  | cons op t ih =>
    show kget (kupdate (applyOp s op) t) k = _
    rw [ih, opsVal_cons, kget_applyOp]

theorem rollbackOfG_eq (g : SKey → Option Val) (ops : List WOp) :
    rollbackOfG g ops = ops.map (invOp g) := rfl

theorem invOp_key (g : SKey → Option Val) (op : WOp) : (invOp g op).key = op.key := by
  cases op with
  | put k v => cases hg : g k <;> simp [invOp, WOp.key, hg]
  | remove k => cases hg : g k <;> simp [invOp, WOp.key, hg]

theorem invOp_val (g : SKey → Option Val) (op : WOp) : (invOp g op).val? = g op.key := by
  cases op with
  | put k v => cases hg : g k <;> simp [invOp, WOp.key, WOp.val?, hg]
  | remove k => cases hg : g k <;> simp [invOp, WOp.key, WOp.val?, hg]

/-- Every key of a journal batch is a key of the batch it inverts. -/
theorem rollbackOfG_key (g : SKey → Option Val) (ops : List WOp) :
    ∀ op ∈ rollbackOfG g ops, ∃ op' ∈ ops, op.key = op'.key := by
  intro op hop
  rw [rollbackOfG_eq] at hop
  rcases List.mem_map.1 hop with ⟨op', hop', rfl⟩
  exact ⟨op', hop', invOp_key g op'⟩

/-- A journal batch restores the original value at every key the
inverted batch touches. -/
theorem opsVal_rollbackOfG_touched (g : SKey → Option Val) {ops : List WOp}
    {k : SKey} (h : ∃ op ∈ ops, op.key = k) (x : Option Val) :
    opsVal (rollbackOfG g ops) k x = g k := by
  induction ops generalizing x with
  | nil => simp at h
  | cons op t ih =>
    rw [rollbackOfG_eq, List.map_cons, opsVal_cons, ← rollbackOfG_eq]
    by_cases ht : ∃ op' ∈ t, op'.key = k
    · rw [ih ht]
    · have hop : op.key = k := by
        rcases h with ⟨o, ho, hk⟩
        rcases List.mem_cons.1 ho with rfl | hmem
        · exact hk
        · exact absurd ⟨o, hmem, hk⟩ ht
      have hrest : ∀ o ∈ rollbackOfG g t, o.key ≠ k := by
        intro o ho hk
        rcases rollbackOfG_key g t o ho with ⟨o', ho', hk'⟩
        exact ht ⟨o', ho', hk' ▸ hk⟩
      rw [opsVal_untouched hrest, invOp_key, if_pos hop, invOp_val, hop]

/-- A journal batch leaves keys untouched by the inverted batch
untouched. -/
theorem opsVal_rollbackOfG_untouched (g : SKey → Option Val) {ops : List WOp}
    {k : SKey} (h : ∀ op ∈ ops, op.key ≠ k) (x : Option Val) :
    opsVal (rollbackOfG g ops) k x = x := by
  refine opsVal_untouched ?_ x
  intro o ho hk
  rcases rollbackOfG_key g ops o ho with ⟨o', ho', hk'⟩
  exact h o' ho' (hk' ▸ hk)

/-! ### Sortedness preservation and extensionality -/

theorem sput_mem {s : Store} {k : SKey} {v : Val} :
    ∀ kv ∈ sput s k v, kv = (k, v) ∨ kv ∈ s := by
  induction s with
  | nil => simp [sput]
  | cons hd t ih =>
    obtain ⟨k1, v1⟩ := hd
    intro kv hkv
    simp only [sput] at hkv
    by_cases h1 : k.code < k1.code
    · rw [if_pos h1] at hkv
      rcases List.mem_cons.1 hkv with rfl | h
      · exact Or.inl rfl
      · exact Or.inr h
    · by_cases h2 : k = k1
      · rw [if_neg h1, if_pos h2] at hkv
        rcases List.mem_cons.1 hkv with rfl | h
        · exact Or.inl rfl
        · exact Or.inr (List.mem_cons_of_mem _ h)
      · rw [if_neg h1, if_neg h2] at hkv
        rcases List.mem_cons.1 hkv with rfl | h
        · exact Or.inr (List.mem_cons_self _ _)
        · rcases ih kv h with h' | h'
          · exact Or.inl h'
          · exact Or.inr (List.mem_cons_of_mem _ h')

theorem sdel_mem {s : Store} {k : SKey} : ∀ kv ∈ sdel s k, kv ∈ s := by
  induction s with
  | nil => simp [sdel]
  | cons hd t ih =>
    obtain ⟨k1, v1⟩ := hd
    intro kv hkv
    simp only [sdel] at hkv
    by_cases h1 : k = k1
    · rw [if_pos h1] at hkv
      exact List.mem_cons_of_mem _ (ih kv hkv)
    · rw [if_neg h1] at hkv
      rcases List.mem_cons.1 hkv with rfl | h
      · exact List.mem_cons_self _ _
      · exact List.mem_cons_of_mem _ (ih kv h)

theorem ssorted_sput {s : Store} (hs : SSorted s) (k : SKey) (v : Val) :
    SSorted (sput s k v) := by
  induction s with
  | nil => simp [sput, SSorted]
  | cons hd t ih =>
    obtain ⟨k1, v1⟩ := hd
    rw [SSorted, List.pairwise_cons] at hs
    obtain ⟨hlt, ht⟩ := hs
    simp only [sput]
    by_cases h1 : k.code < k1.code
    · rw [if_pos h1]
      refine List.Pairwise.cons ?_ (List.Pairwise.cons hlt ht)
      intro b hb
      rcases List.mem_cons.1 hb with rfl | h
      · exact h1
      · exact h1.trans (hlt b h)
    · by_cases h2 : k = k1
      · rw [if_neg h1, if_pos h2]
        subst h2
        exact List.Pairwise.cons (fun b hb => hlt b hb) ht
      · rw [if_neg h1, if_neg h2]
        refine List.Pairwise.cons ?_ (ih ht)
        intro b hb
        rcases sput_mem b hb with rfl | h
        · show k1.code < k.code
          have : k1.code ≠ k.code := fun h => h2 (skeyCode_inj h.symm)
          omega
        · exact hlt b h

theorem ssorted_sdel {s : Store} (hs : SSorted s) (k : SKey) :
    SSorted (sdel s k) := by
  induction s with
  | nil => simpa [sdel] using hs
  | cons hd t ih =>
    obtain ⟨k1, v1⟩ := hd
    rw [SSorted, List.pairwise_cons] at hs
    obtain ⟨hlt, ht⟩ := hs
    simp only [sdel]
    by_cases h1 : k = k1
    · rw [if_pos h1]
      exact ih ht
    · rw [if_neg h1]
      exact List.Pairwise.cons (fun b hb => hlt b (sdel_mem b hb)) (ih ht)

theorem ssorted_applyOp {s : Store} (hs : SSorted s) (op : WOp) :
    SSorted (applyOp s op) := by
  cases op with
  | put k v => exact ssorted_sput hs k v
  | remove k => exact ssorted_sdel hs k

theorem ssorted_kupdate {s : Store} (hs : SSorted s) (ops : List WOp) :
    SSorted (kupdate s ops) := by
  induction ops generalizing s with
  | nil => exact hs
  | cons op t ih => exact ih (ssorted_applyOp hs op)

theorem kget_head_some {k1 : SKey} {v1 : Val} {t : Store} :
    kget ((k1, v1) :: t) k1 = some v1 := by
  simp [kget]

theorem kget_none_of_lt {l : Store} {k : SKey}
    (h : ∀ kv ∈ l, k.code < kv.1.code) : kget l k = none := by
  induction l with
  | nil => rfl
  | cons hd t ih =>
    obtain ⟨k1, v1⟩ := hd
    have hlt := h (k1, v1) (List.mem_cons_self _ _)
    simp only [kget]
    rw [if_neg (fun he => by subst he; exact absurd hlt (lt_irrefl _)), ih]
    intro kv hkv
    exact h kv (List.mem_cons_of_mem _ hkv)

/-! ### Monadic plumbing -/

@[simp] theorem ebind_ok {α β : Type} (a : α) (f : α → Except BErr β) :
    (Except.ok a : Except BErr α) >>= f = f a := rfl

@[simp] theorem ebind_err {α β : Type} (e : BErr) (f : α → Except BErr β) :
    (Except.error e : Except BErr α) >>= f = .error e := rfl

/-! ### Encoding round trips -/

@[simp] theorem decAddr_encAddr (a : Address) : decAddr (encAddr a) = some a := by
  cases a <;> rfl

@[simp] theorem decKey_encKey (k : SKey) : decKey (encKey k) = some k := by
  cases k with
  | account a => simp [encKey, decKey]
  | _ => rfl

@[simp] theorem decOp_encOp (op : WOp) : decOp (encOp op) = some op := by
  cases op <;> simp [encOp, decOp]

@[simp] theorem decOps_encOps (ops : List WOp) : decOps (encOps ops) = some ops := by
  induction ops with
  | nil => rfl
  | cons op t ih => simp [encOps, decOps, ih]

theorem decNat_encNat {n : Nat} (h : n < 2 ^ 64) : decNat (encNat n) = some n := by
  simp only [decNat, encNat]
  rw [if_pos h]

theorem decAccount_encAccount {a : Account} (hb : a.balance < 2 ^ 64)
    (hn : a.nonce < 2 ^ 32) : decAccount (encAccount a) = some a := by
  simp only [decAccount, encAccount]
  rw [if_pos ⟨hb, hn⟩]

/-! ### Fork overlays only hold account keys -/

theorem oinsert_mem {ov : List (SKey × OvEntry)} {k : SKey} {e : OvEntry} :
    ∀ kv ∈ oinsert ov k e, kv = (k, e) ∨ kv ∈ ov := by
  induction ov with
  | nil => simp [oinsert]
  | cons hd t ih =>
    obtain ⟨k1, e1⟩ := hd
    intro kv hkv
    simp only [oinsert] at hkv
    by_cases h1 : k.code < k1.code
    · rw [if_pos h1] at hkv
      rcases List.mem_cons.1 hkv with rfl | h
      · exact Or.inl rfl
      · exact Or.inr h
    · by_cases h2 : k = k1
      · rw [if_neg h1, if_pos h2] at hkv
        rcases List.mem_cons.1 hkv with rfl | h
        · exact Or.inl rfl
        · exact Or.inr (List.mem_cons_of_mem _ h)
      · rw [if_neg h1, if_neg h2] at hkv
        rcases List.mem_cons.1 hkv with rfl | h
        · exact Or.inr (List.mem_cons_self _ _)
        · rcases ih kv h with h' | h'
          · exact Or.inl h'
          · exact Or.inr (List.mem_cons_of_mem _ h')

theorem ovAccount_ovStep {ov : List (SKey × OvEntry)} {op : WOp}
    (hov : ovAccount ov) (hop : ∃ a, op.key = .account a) :
    ovAccount (ovStep ov op) := by
  cases op with
  | put k v =>
    intro kv hkv
    rcases oinsert_mem kv hkv with rfl | h
    · simpa [WOp.key] using hop
    · exact hov kv h
  | remove k =>
    intro kv hkv
    rcases oinsert_mem kv hkv with rfl | h
    · simpa [WOp.key] using hop
    · exact hov kv h

theorem ovAccount_foldl : ∀ (ops : List WOp) (ov : List (SKey × OvEntry)),
    ovAccount ov → opsAccount ops → ovAccount (ops.foldl ovStep ov)
  | [], _, hov, _ => hov
  | op :: t, ov, hov, hops => by
    rw [List.foldl_cons]
    exact ovAccount_foldl t _
      (ovAccount_ovStep hov (hops op (List.mem_cons_self _ _)))
      (fun o ho => hops o (List.mem_cons_of_mem _ ho))

theorem ovAccount_mupdate [KV σ] {m : Mirror σ} {ops : List WOp}
    (hov : ovAccount m.overlay) (hops : opsAccount ops) :
    ovAccount (mupdate m ops).overlay :=
  ovAccount_foldl ops m.overlay hov hops

/-- The batch `apply_tx` commits is made of account puts only. -/
theorem applyTx_ops_account [KV σ] {s s' : σ} {tx : Transaction}
    (h : applyTx s tx = .ok s') :
    ∃ ops, opsAccount ops ∧ s' = KV.update s ops := by
  unfold applyTx at h
  by_cases hv : ¬ verifySignature tx
  · rw [if_pos hv] at h
    exact absurd h (by simp)
  · rw [if_neg hv] at h
    cases hdata : tx.data with
    | otherTx n => rw [hdata] at h; exact absurd h (by simp)
    | regularSend dst amount =>
      rw [hdata] at h
      cases hacc : getAccount s tx.src with
      | error e => rw [hacc] at h; exact absurd h (by simp)
      | ok accSrc =>
        rw [hacc] at h
        simp only [ebind_ok] at h
        by_cases h1 : tx.nonce ≠ (accSrc.nonce + 1) % 2 ^ 32
        · rw [if_pos h1] at h; exact absurd h (by simp)
        · rw [if_neg h1] at h
          by_cases h2 : accSrc.balance < (amount + tx.fee) % 2 ^ 64
          · rw [if_pos h2] at h; exact absurd h (by simp)
          · rw [if_neg h2] at h
            by_cases h3 : dst ≠ tx.src
            · rw [dif_pos h3] at h
              cases hacc2 : getAccount s dst with
              | error e => rw [hacc2] at h; exact absurd h (by simp)
              | ok accDst =>
                rw [hacc2] at h
                simp only [ebind_ok, Except.ok.injEq] at h
                refine ⟨_, ?_, h.symm⟩
                intro op hop
                rcases List.mem_cons.1 hop with rfl | hop'
                · exact ⟨tx.src, rfl⟩
                · rcases List.mem_cons.1 hop' with rfl | hop''
                  · exact ⟨dst, rfl⟩
                  · simp at hop''
            · rw [dif_neg h3] at h
              simp only [Except.ok.injEq] at h
              refine ⟨_, ?_, h.symm⟩
              intro op hop
              rcases List.mem_cons.1 hop with rfl | hop'
              · exact ⟨tx.src, rfl⟩
              · simp at hop'

/-- The whole fork built by the per-transaction loop of `apply_block`
has an account-keys-only overlay. -/
theorem applyTxsFork_ovAccount [KV σ] {txs : List Transaction}
    {m m' : Mirror σ} (hov : ovAccount m.overlay)
    (h : applyTxsFork txs m = .ok m') : ovAccount m'.overlay := by
  induction txs generalizing m with
  | nil =>
    simp only [applyTxsFork, Except.ok.injEq] at h
    exact h ▸ hov
  | cons t ts ih =>
    simp only [applyTxsFork] at h
    cases htx : applyTx m t with
    | error e => rw [htx] at h; exact absurd h (by simp)
    | ok m1 =>
      rw [htx] at h
      simp only [ebind_ok] at h
      rcases applyTx_ops_account htx with ⟨ops, hops, rfl⟩
      exact ih (ovAccount_mupdate hov hops) h

/-- The committed ops of a fork with an account-keys-only overlay are
account puts and removes only. -/
theorem toOps_account {m : Mirror σ} (hov : ovAccount m.overlay) :
    opsAccount (toOps m) := by
  intro op hop
  simp only [toOps, List.mem_map] at hop
  rcases hop with ⟨⟨k, e⟩, hke, rfl⟩
  rcases hov _ hke with ⟨a, ha⟩
  cases e <;> exact ⟨a, by simpa [WOp.key] using ha⟩

/-- Byte-identity: two sorted stores with equal lookups are equal. -/
theorem store_ext {s t : Store} (hs : SSorted s) (ht : SSorted t)
    (h : ∀ k, kget s k = kget t k) : s = t := by
  induction s generalizing t with
  | nil =>
    cases t with
    | nil => rfl
    | cons hd t' =>
      obtain ⟨k1, v1⟩ := hd
      have := h k1
      rw [kget_head_some] at this
      simp [kget] at this
  | cons hd s' ih =>
    obtain ⟨k1, v1⟩ := hd
    cases t with
    | nil =>
      have := h k1
      rw [kget_head_some] at this
      simp [kget] at this
    | cons hd2 t' =>
      obtain ⟨k2, v2⟩ := hd2
      rw [SSorted, List.pairwise_cons] at hs ht
      obtain ⟨hlt1, hs'⟩ := hs
      obtain ⟨hlt2, ht'⟩ := ht
      have hcode : k1.code = k2.code := by
        by_contra hne
        rcases Nat.lt_or_ge k1.code k2.code with hlt | hge
        · have h1 := h k1
          rw [kget_head_some] at h1
          have hnone : kget ((k2, v2) :: t') k1 = none := by
            simp only [kget]
            rw [if_neg (fun he => by subst he; omega), kget_none_of_lt]
            intro kv hkv
            exact hlt.trans (hlt2 kv hkv)
          rw [hnone] at h1
          exact Option.noConfusion h1
        · have hlt' : k2.code < k1.code := by omega
          have h1 := h k2
          rw [kget_head_some] at h1
          have hnone : kget ((k1, v1) :: s') k2 = none := by
            simp only [kget]
            rw [if_neg (fun he => by subst he; omega), kget_none_of_lt]
            intro kv hkv
            exact hlt'.trans (hlt1 kv hkv)
          rw [hnone] at h1
          exact Option.noConfusion h1.symm
      have hk : k1 = k2 := skeyCode_inj hcode
      subst hk
      have hv : v1 = v2 := by
        have h1 := h k1
        rw [kget_head_some, kget_head_some] at h1
        exact Option.some_injective _ h1
      subst hv
      congr 1
      refine ih hs' ht' ?_
      intro k
      by_cases hkk : k = k1
      · subst hkk
        rw [kget_none_of_lt fun kv hkv => hlt1 kv hkv,
          kget_none_of_lt fun kv hkv => hlt2 kv hkv]
      · have h1 := h k
        simp only [kget, if_neg hkk] at h1
        exact h1

@[simp] theorem KV_get_store (s : Store) (k : SKey) : KV.get s k = kget s k := rfl

theorem KV_get_store_fn : (KV.get : Store → SKey → Option Val) = kget := rfl

@[simp] theorem KV_update_store (s : Store) (ops : List WOp) :
    KV.update s ops = kupdate s ops := rfl

/-! ### Account reads and the `apply_tx` paths -/

theorem decAccount_bounds {v : Val} {acc : Account} (h : decAccount v = some acc) :
    acc.balance < 2 ^ 64 ∧ acc.nonce < 2 ^ 32 := by
  cases v with
  | vnat n => exact absurd h (by simp [decAccount])
  | vnil => exact absurd h (by simp [decAccount])
  | vcons x y =>
    cases x with
    | vnat b =>
      cases y with
      | vnat n =>
        simp only [decAccount] at h
        split_ifs at h with hc
        · injection h with h
          subst h
          exact hc
      | vnil => exact absurd h (by simp [decAccount])
      | vcons _ _ => exact absurd h (by simp [decAccount])
    | vnil => exact absurd h (by simp [decAccount])
    | vcons _ _ => exact absurd h (by simp [decAccount])

theorem TOTAL_SUPPLY_lt : TOTAL_SUPPLY < 2 ^ 64 := by decide

theorem getAccount_ok_bounds {S : Store} {a : Address} {acc : Account}
    (h : getAccount S a = .ok acc) : acc.balance < 2 ^ 64 ∧ acc.nonce < 2 ^ 32 := by
  simp only [getAccount, KV_get_store] at h
  split at h
  · split at h
    · injection h with h
      subst h
      rename_i heq
      exact decAccount_bounds heq
    · exact absurd h (by simp)
  · injection h with h
    subst h
    have hb : (if a = Address.treasury then TOTAL_SUPPLY else 0) < 2 ^ 64 := by
      split_ifs
      · exact TOTAL_SUPPLY_lt
      · decide
    exact ⟨hb, show (0 : Nat) < 2 ^ 32 by decide⟩

theorem getAccount_err {S : Store} {a : Address} {e : BErr}
    (h : getAccount S a = .error e) : e = .KvStoreError := by
  simp only [getAccount, KV_get_store] at h
  split at h
  · split at h
    · exact absurd h (by simp)
    · injection h with h
      exact h.symm
  · exact absurd h (by simp)

/-- Reading a different account through a single account put. -/
theorem getAccount_sput_other {S : Store} {a1 a2 : Address} {v : Val}
    (h : a2 ≠ a1) :
    getAccount (sput S (.account a1) v) a2 = getAccount S a2 := by
  simp only [getAccount, KV_get_store]
  rw [kget_sput, if_neg (fun he => h (by injection he))]

/-- Successful self-send path of `apply_tx`: only the fee is debited. -/
theorem applyTx_ok_self {S : Store} {tx : Transaction} {amount : Nat}
    {accSrc : Account}
    (hd : tx.data = .regularSend tx.src amount)
    (hv : verifySignature tx = true)
    (hacc : getAccount S tx.src = .ok accSrc)
    (hn : tx.nonce = (accSrc.nonce + 1) % 2 ^ 32)
    (hb : ¬ accSrc.balance < (amount + tx.fee) % 2 ^ 64) :
    applyTx S tx = .ok (kupdate S [.put (.account tx.src)
      (encAccount ⟨(accSrc.balance + 2 ^ 64 - tx.fee % 2 ^ 64) % 2 ^ 64,
        (accSrc.nonce + 1) % 2 ^ 32⟩)]) := by
  unfold applyTx
  rw [hd, if_neg (by simp [hv]), hacc]
  simp only [ebind_ok]
  rw [if_neg (by simp [hn]), if_neg hb, dif_neg (by simp)]
  simp

/-- Successful distinct-destination path of `apply_tx`. -/
theorem applyTx_ok_send {S : Store} {tx : Transaction} {dst : Address}
    {amount : Nat} {accSrc accDst : Account}
    (hd : tx.data = .regularSend dst amount) (hne : dst ≠ tx.src)
    (hv : verifySignature tx = true)
    (hacc : getAccount S tx.src = .ok accSrc)
    (hacc2 : getAccount S dst = .ok accDst)
    (hn : tx.nonce = (accSrc.nonce + 1) % 2 ^ 32)
    (hb : ¬ accSrc.balance < (amount + tx.fee) % 2 ^ 64) :
    applyTx S tx = .ok (kupdate S
      [.put (.account tx.src)
        (encAccount ⟨(accSrc.balance + 2 ^ 64 - (amount + tx.fee) % 2 ^ 64) % 2 ^ 64,
          (accSrc.nonce + 1) % 2 ^ 32⟩),
       .put (.account dst)
        (encAccount ⟨(accDst.balance + amount) % 2 ^ 64, accDst.nonce⟩)]) := by
  unfold applyTx
  rw [hd, if_neg (by simp [hv]), hacc]
  simp only [ebind_ok]
  rw [if_neg (by simp [hn]), if_neg hb, dif_pos hne, hacc2]
  simp only [ebind_ok]
  rw [if_pos hne]
  rfl

/-- Inversion of a successful `apply_tx` on a `RegularSend`. -/
theorem applyTx_ok_elim {S S' : Store} {tx : Transaction} {dst : Address}
    {amount : Nat}
    (hd : tx.data = .regularSend dst amount)
    (happ : applyTx S tx = .ok S') :
    verifySignature tx = true ∧
    ∃ accSrc, getAccount S tx.src = .ok accSrc ∧
      tx.nonce = (accSrc.nonce + 1) % 2 ^ 32 ∧
      ¬ accSrc.balance < (amount + tx.fee) % 2 ^ 64 ∧
      ((dst = tx.src ∧
        S' = kupdate S [.put (.account tx.src)
          (encAccount ⟨(accSrc.balance + 2 ^ 64 - tx.fee % 2 ^ 64) % 2 ^ 64,
            (accSrc.nonce + 1) % 2 ^ 32⟩)]) ∨
       (dst ≠ tx.src ∧ ∃ accDst, getAccount S dst = .ok accDst ∧
        S' = kupdate S
          [.put (.account tx.src)
            (encAccount ⟨(accSrc.balance + 2 ^ 64 - (amount + tx.fee) % 2 ^ 64) % 2 ^ 64,
              (accSrc.nonce + 1) % 2 ^ 32⟩),
           .put (.account dst)
            (encAccount ⟨(accDst.balance + amount) % 2 ^ 64, accDst.nonce⟩)])) := by
  by_cases hv : verifySignature tx
  · refine ⟨hv, ?_⟩
    cases hacc : getAccount S tx.src with
    | error e =>
      unfold applyTx at happ
      rw [hd, if_neg (by simp [hv]), hacc] at happ
      exact absurd happ (by simp)
    | ok accSrc =>
      refine ⟨accSrc, rfl, ?_⟩
      by_cases hn : tx.nonce = (accSrc.nonce + 1) % 2 ^ 32
      · refine ⟨hn, ?_⟩
        by_cases hb : accSrc.balance < (amount + tx.fee) % 2 ^ 64
        · unfold applyTx at happ
          rw [hd, if_neg (by simp [hv]), hacc] at happ
          simp only [ebind_ok] at happ
          rw [if_neg (by simp [hn]), if_pos hb] at happ
          exact absurd happ (by simp)
        · refine ⟨hb, ?_⟩
          by_cases hne : dst = tx.src
          · refine Or.inl ⟨hne, ?_⟩
            have := applyTx_ok_self (hne ▸ hd) hv hacc hn hb
            rw [this] at happ
            injection happ with happ
            exact happ.symm
          · refine Or.inr ⟨hne, ?_⟩
            cases hacc2 : getAccount S dst with
            | error e =>
              unfold applyTx at happ
              rw [hd, if_neg (by simp [hv]), hacc] at happ
              simp only [ebind_ok] at happ
              rw [if_neg (by simp [hn]), if_neg hb, dif_pos hne, hacc2] at happ
              exact absurd happ (by simp)
            | ok accDst =>
              refine ⟨accDst, rfl, ?_⟩
              have := applyTx_ok_send hd hne hv hacc hacc2 hn hb
              rw [this] at happ
              injection happ with happ
              exact happ.symm
      · unfold applyTx at happ
        rw [hd, if_neg (by simp [hv]), hacc] at happ
        simp only [ebind_ok] at happ
        rw [if_pos hn] at happ
        exact absurd happ (by simp)
  · unfold applyTx at happ
    rw [if_pos hv] at happ
    exact absurd happ (by simp)

/-- The nonce-mismatch error path of `apply_tx`. -/
theorem applyTx_nonce_err {S : Store} {tx : Transaction} {dst : Address}
    {amount : Nat} {accSrc : Account}
    (hd : tx.data = .regularSend dst amount)
    (hv : verifySignature tx = true)
    (hacc : getAccount S tx.src = .ok accSrc)
    (hn : tx.nonce ≠ (accSrc.nonce + 1) % 2 ^ 32) :
    applyTx S tx = .error .InvalidTransactionNonce := by
  unfold applyTx
  rw [hd, if_neg (by simp [hv]), hacc]
  simp only [ebind_ok]
  rw [if_pos hn]

/-- With the right nonce, `apply_tx` never reports a nonce error. -/
theorem applyTx_no_nonce_err {S : Store} {tx : Transaction} {dst : Address}
    {amount : Nat} {accSrc : Account}
    (hd : tx.data = .regularSend dst amount)
    (hv : verifySignature tx = true)
    (hacc : getAccount S tx.src = .ok accSrc)
    (hn : tx.nonce = (accSrc.nonce + 1) % 2 ^ 32) :
    applyTx S tx ≠ .error .InvalidTransactionNonce := by
  intro hcontra
  unfold applyTx at hcontra
  rw [hd, if_neg (by simp [hv]), hacc] at hcontra
  simp only [ebind_ok] at hcontra
  rw [if_neg (by simp [hn])] at hcontra
  by_cases hb : accSrc.balance < (amount + tx.fee) % 2 ^ 64
  · rw [if_pos hb] at hcontra
    exact BErr.noConfusion (by injection hcontra)
  · rw [if_neg hb] at hcontra
    by_cases hne : dst ≠ tx.src
    · rw [dif_pos hne] at hcontra
      cases hacc2 : getAccount S dst with
      | error e =>
        rw [hacc2] at hcontra
        simp only [ebind_err] at hcontra
        injection hcontra with hcontra
        rw [getAccount_err hacc2] at hcontra
        exact BErr.noConfusion hcontra
      | ok accDst =>
        rw [hacc2] at hcontra
        simp only [ebind_ok] at hcontra
        exact Except.noConfusion hcontra
    · rw [dif_neg hne] at hcontra
      exact Except.noConfusion hcontra

/-! ### Supply accounting -/

theorem kget_mem {l : Store} {k : SKey} {w : Val} (h : kget l k = some w) :
    (k, w) ∈ l := by
  induction l with
  | nil => simp [kget] at h
  | cons hd t ih =>
    obtain ⟨k1, v1⟩ := hd
    simp only [kget] at h
    by_cases h1 : k = k1
    · rw [if_pos h1] at h
      injection h with h
      subst h1
      subst h
      exact List.mem_cons_self _ _
    · rw [if_neg h1] at h
      exact List.mem_cons_of_mem _ (ih h)

theorem mapsum_sput_absent {S : Store} {k : SKey} {v : Val}
    (h : kget S k = none) :
    ((sput S k v).map entryBal).sum = (S.map entryBal).sum + entryBal (k, v) := by
  induction S with
  | nil => simp [sput]
  | cons hd t ih =>
    obtain ⟨k1, v1⟩ := hd
    simp only [kget] at h
    by_cases h1 : k = k1
    · rw [if_pos h1] at h
      exact absurd h (by simp)
    · rw [if_neg h1] at h
      simp only [sput]
      by_cases h2 : k.code < k1.code
      · rw [if_pos h2]
        simp only [List.map_cons, List.sum_cons]
        omega
      · rw [if_neg h2, if_neg h1]
        simp only [List.map_cons, List.sum_cons, ih h]
        omega

theorem mapsum_sput_present {S : Store} {k : SKey} {v w : Val}
    (hs : SSorted S) (h : kget S k = some w) :
    ((sput S k v).map entryBal).sum + entryBal (k, w) =
      (S.map entryBal).sum + entryBal (k, v) := by
  induction S with
  | nil => simp [kget] at h
  | cons hd t ih =>
    obtain ⟨k1, v1⟩ := hd
    rw [SSorted, List.pairwise_cons] at hs
    obtain ⟨hlt, ht⟩ := hs
    simp only [kget] at h
    by_cases h1 : k = k1
    · subst h1
      rw [if_pos rfl] at h
      injection h with h
      subst h
      have hred : sput ((k, v1) :: t) k v = (k, v) :: t := by
        simp [sput]
      rw [hred]
      simp only [List.map_cons, List.sum_cons]
      omega
    · rw [if_neg h1] at h
      have hklt : k1.code < k.code := hlt (k, w) (kget_mem h)
      simp only [sput]
      rw [if_neg (by omega), if_neg h1]
      simp only [List.map_cons, List.sum_cons]
      have := ih ht h
      omega

theorem getAccount_some_elim {S : Store} {a : Address} {v : Val} {acc : Account}
    (hk : kget S (.account a) = some v) (h : getAccount S a = .ok acc) :
    decAccount v = some acc := by
  simp only [getAccount, KV_get_store, hk] at h
  split at h
  · rename_i acc' heq
    injection h with h
    rw [heq, h]
  · exact absurd h (by simp)

theorem getAccount_none_elim {S : Store} {a : Address} {acc : Account}
    (hk : kget S (.account a) = none) (h : getAccount S a = .ok acc) :
    acc = ⟨if a = .treasury then TOTAL_SUPPLY else 0, 0⟩ := by
  simp only [getAccount, KV_get_store, hk] at h
  injection h with h
  exact h.symm

/-- Replacing one account entry shifts the spec-side balance sum by
exactly the balance difference. -/
theorem storeSupply_put {S : Store} (hS : SSorted S) {a : Address}
    {acc acc' : Account}
    (hacc : getAccount S a = .ok acc) (hb : acc'.balance < 2 ^ 64)
    (hn : acc'.nonce < 2 ^ 32) :
    storeSupply (sput S (.account a) (encAccount acc')) + acc.balance =
      storeSupply S + acc'.balance := by
  have heB : entryBal (.account a, encAccount acc') = acc'.balance := by
    simp [entryBal, decAccount_encAccount hb hn]
  have htre := kget_sput S (.account a) (encAccount acc') (.account .treasury)
  cases hk : kget S (.account a) with
  | some v =>
    have hdec : decAccount v = some acc := getAccount_some_elim hk hacc
    have heBw : entryBal (.account a, v) = acc.balance := by
      simp [entryBal, hdec]
    have hsum := mapsum_sput_present (v := encAccount acc') hS hk
    rw [heB, heBw] at hsum
    have hT : (if kget (sput S (.account a) (encAccount acc'))
          (.account .treasury) = none then TOTAL_SUPPLY else 0) =
        (if kget S (.account .treasury) = none then TOTAL_SUPPLY else 0) := by
      rw [htre]
      by_cases hta : (SKey.account Address.treasury) = SKey.account a
      · have hta' : Address.treasury = a := by injection hta
        rw [if_pos hta, if_neg (by simp), hta', hk, if_neg (by simp)]
      · rw [if_neg hta]
    unfold storeSupply
    rw [hT]
    omega
  | none =>
    have hacc' : acc = ⟨if a = .treasury then TOTAL_SUPPLY else 0, 0⟩ :=
      getAccount_none_elim hk hacc
    have hsum := mapsum_sput_absent (v := encAccount acc') hk
    rw [heB] at hsum
    by_cases hta' : a = Address.treasury
    · subst hta'
      have hbal : acc.balance = TOTAL_SUPPLY := by rw [hacc']; simp
      have hT : (if kget (sput S (.account .treasury) (encAccount acc'))
            (.account .treasury) = none then TOTAL_SUPPLY else 0) = 0 := by
        rw [htre, if_pos rfl]
        exact if_neg (by simp)
      have hT0 : (if kget S (.account .treasury) = none then TOTAL_SUPPLY
          else 0) = TOTAL_SUPPLY := if_pos hk
      unfold storeSupply
      rw [hT, hT0, hbal]
      omega
    · have hbal : acc.balance = 0 := by rw [hacc']; simp [hta']
      have hT : kget (sput S (.account a) (encAccount acc'))
          (.account .treasury) = kget S (.account .treasury) := by
        rw [htre,
          if_neg (fun he => hta' (by injection he with he; exact he.symm))]
      unfold storeSupply
      rw [hT, hbal]
      omega

theorem mod64_lt (x : Nat) : x % 2 ^ 64 < 2 ^ 64 := Nat.mod_lt _ (by decide)

theorem mod32_lt (x : Nat) : x % 2 ^ 32 < 2 ^ 32 := Nat.mod_lt _ (by decide)

theorem kupdate_single (S : Store) (op : WOp) : kupdate S [op] = applyOp S op := rfl

theorem kupdate_pair (S : Store) (o1 o2 : WOp) :
    kupdate S [o1, o2] = applyOp (applyOp S o1) o2 := rfl

/-- Reading back the account a single put just wrote. -/
theorem getAccount_sput_self {S : Store} {a : Address} {acc : Account}
    (hb : acc.balance < 2 ^ 64) (hn : acc.nonce < 2 ^ 32) :
    getAccount (sput S (.account a) (encAccount acc)) a = .ok acc := by
  have hk : kget (sput S (.account a) (encAccount acc)) (.account a) =
      some (encAccount acc) := by rw [kget_sput, if_pos rfl]
  simp only [getAccount, KV_get_store, hk, decAccount_encAccount hb hn]

/-! ### Inverting a successful `apply_block` -/

theorem applyBlock_ok_elim {S S' : Store} {b : Blk} {d : Bool}
    (happ : applyBlock S b d = .ok S') :
    ∃ h key fork cp,
      getHeight S = .ok h ∧
      applyTxsFork b.body (mkMirror S) = .ok fork ∧
      getPower S = .ok cp ∧
      S' = kupdate S (blockChangesAll S b key h cp fork) := by
  unfold applyBlock at happ
  cases hh : getHeight S with
  | error e => rw [hh] at happ; exact absurd happ (by simp)
  | ok h =>
    rw [hh] at happ
    simp only [ebind_ok] at happ
    cases hk : powKey S b.header.number with
    | error e => rw [hk] at happ; exact absurd happ (by simp)
    | ok key =>
      rw [hk] at happ
      simp only [ebind_ok] at happ
      cases hc : blockChecks S b d h key with
      | error e => rw [hc] at happ; exact absurd happ (by simp)
      | ok u =>
        rw [hc] at happ
        simp only [ebind_ok] at happ
        cases hf : applyTxsFork b.body (mkMirror S) with
        | error e => rw [hf] at happ; exact absurd happ (by simp)
        | ok fork =>
          rw [hf] at happ
          simp only [ebind_ok] at happ
          cases hp : getPower S with
          | error e => rw [hp] at happ; exact absurd happ (by simp)
          | ok cp =>
            rw [hp] at happ
            simp only [ebind_ok, Except.ok.injEq] at happ
            exact ⟨h, key, fork, cp, rfl, rfl, rfl, happ.symm⟩

/-- The keys the pre-journal batch of `apply_block` touches: account
keys from the fork, the `height` key and the new `power` key. -/
theorem blockChangesPrefix_keys {b : Blk} {key : Val} {h cp : Nat}
    {fork : Mirror Store} (hacc : opsAccount (toOps fork)) :
    ∀ op ∈ blockChangesPrefix b key h cp fork,
      op.key = .height ∨ op.key = .power b.header.number ∨
        ∃ a, op.key = .account a := by
  intro op hop
  rcases List.mem_append.1 hop with hfk | hrest
  · exact Or.inr (Or.inr (hacc op hfk))
  · rcases List.mem_cons.1 hrest with rfl | hrest'
    · exact Or.inl rfl
    · rcases List.mem_cons.1 hrest' with rfl | hrest''
      · exact Or.inr (Or.inl rfl)
      · simp at hrest''

/-- Account-only batches never touch non-account keys. -/
theorem opsVal_account_untouched {ops : List WOp} (hacc : opsAccount ops)
    {k : SKey} (hk : ∀ a, k ≠ .account a) (x : Option Val) :
    opsVal ops k x = x := by
  refine opsVal_untouched (fun op hop hkeq => ?_) x
  rcases hacc op hop with ⟨a, ha⟩
  exact hk a (by rw [← hkeq, ha])

/-- The height entry the pre-journal batch installs. -/
theorem opsVal_prefix_height {b : Blk} {key : Val} {h cp : Nat}
    {fork : Mirror Store} (hacc : opsAccount (toOps fork)) (x : Option Val) :
    opsVal (blockChangesPrefix b key h cp fork) .height x =
      some (encNat ((h + 1) % 2 ^ 64)) := by
  unfold blockChangesPrefix
  rw [opsVal_append]
  rw [opsVal_account_untouched hacc (fun a => by simp) x]
  simp [opsVal_cons, opsVal_nil, WOp.key, WOp.val?]

/-- The power entry the pre-journal batch installs. -/
theorem opsVal_prefix_power {b : Blk} {key : Val} {h cp : Nat}
    {fork : Mirror Store} (hacc : opsAccount (toOps fork)) (x : Option Val) :
    opsVal (blockChangesPrefix b key h cp fork) (.power b.header.number) x =
      some (encNat ((headerPower b.header key + cp) % 2 ^ 64)) := by
  unfold blockChangesPrefix
  rw [opsVal_append]
  rw [opsVal_account_untouched hacc (fun a => by simp) x]
  simp [opsVal_cons, opsVal_nil, WOp.key, WOp.val?]

/-- Keys that are neither `height`, the new `power` key, nor account
keys pass through the pre-journal batch untouched. -/
theorem opsVal_prefix_untouched {b : Blk} {key : Val} {h cp : Nat}
    {fork : Mirror Store} (hacc : opsAccount (toOps fork)) {k : SKey}
    (hk1 : k ≠ .height) (hk2 : k ≠ .power b.header.number)
    (hk3 : ∀ a, k ≠ .account a) (x : Option Val) :
    opsVal (blockChangesPrefix b key h cp fork) k x = x := by
  refine opsVal_untouched (fun op hop hk => ?_) x
  rcases blockChangesPrefix_keys hacc op hop with h' | h' | ⟨a, h'⟩
  · exact hk1 (hk ▸ h' ▸ rfl)
  · exact hk2 (hk ▸ h' ▸ rfl)
  · exact hk3 a (hk ▸ h' ▸ rfl)

/-- **Journal roundtrip kernel.**  Applying a block whose number equals
the current height to a store that has no block/merkle/rollback entry
at that height, then rolling it back, restores the store byte-for-byte. -/
theorem applyBlock_rollbackBlock_roundtrip {S S' : Store} {b : Blk} {h : Nat}
    (hS : SSorted S) (hh : getHeight S = .ok h) (hlt : h + 1 < 2 ^ 64)
    (hnum : b.header.number = h)
    (hbK : kget S (.block h) = none) (hmK : kget S (.merkle h) = none)
    (hrK : kget S (.rollback h) = none)
    (happ : applyBlock S b false = .ok S') :
    rollbackBlock S' = .ok S := by
  rcases applyBlock_ok_elim happ with ⟨h', key, fork, cp, hh', hf, hp, hS'⟩
  rw [hh] at hh'
  injection hh' with hh'
  subst hh'
  have hacc : opsAccount (toOps fork) :=
    toOps_account (applyTxsFork_ovAccount
      (fun kv hkv => absurd hkv (List.not_mem_nil kv)) hf)
  simp only [blockChangesAll, KV_get_store_fn, KV_update_store] at hS'
  rw [hnum] at hS'
  -- Abbreviations for the committed batch.
  set P := blockChangesPrefix b key h cp fork with hPdef
  set rb := rollbackOfG (kget S) P with hrbdef
  -- The height key after commit.
  have hheight : kget S' .height = some (encNat ((h + 1) % 2 ^ 64)) := by
    rw [hS', kget_kupdate, opsVal_append, opsVal_append]
    rw [opsVal_prefix_height hacc]
    simp [opsVal_cons, opsVal_nil, WOp.key, WOp.val?]
  have hmod : (h + 1) % 2 ^ 64 = h + 1 := Nat.mod_eq_of_lt hlt
  have hH' : getHeight S' = .ok (h + 1) := by
    simp only [getHeight, KV_get_store, hheight, hmod, decNat_encNat hlt]
  -- The journal key after commit.
  have hroll : kget S' (.rollback h) = some (encOps rb) := by
    rw [hS', kget_kupdate, opsVal_append, opsVal_append]
    rw [opsVal_prefix_untouched hacc (by simp) (by simp [hnum]) (by simp)]
    simp [opsVal_cons, opsVal_nil, WOp.key, WOp.val?]
  -- The wrapped `height - 1` index is `h` again.
  have hidx : (h + 1 + (2 ^ 64 - 1)) % 2 ^ 64 = h := by
    have hE : 1 ≤ 2 ^ 64 := Nat.one_le_two_pow
    have h1 : h + 1 + (2 ^ 64 - 1) = h + 2 ^ 64 := by omega
    rw [h1, Nat.add_mod_right, Nat.mod_eq_of_lt (by omega)]
  -- Rolling back executes the journal plus the three removals.
  have hRB : rollbackBlock S' =
      .ok (kupdate S' (rb ++
        [.remove (.block h), .remove (.merkle h), .remove (.rollback h)])) := by
    unfold rollbackBlock
    rw [hH']
    simp only [ebind_ok, hidx, KV_get_store, hroll, decOps_encOps, KV_update_store]
  rw [hRB]
  refine congrArg Except.ok ?_
  -- The rolled-back store equals the original store byte-for-byte.
  have hsorted1 : SSorted S' := by rw [hS']; exact ssorted_kupdate hS _
  refine store_ext (ssorted_kupdate hsorted1 _) hS (fun k => ?_)
  rw [kget_kupdate, opsVal_append]
  have hSk : kget S' k = opsVal ([WOp.put (.block h) (encBlock b),
      WOp.put (.merkle h) (merkleRoot b.body)]) k
      (opsVal [WOp.put (.rollback h) (encOps rb)] k (opsVal P k (kget S k))) := by
    rw [hS', kget_kupdate, opsVal_append, opsVal_append]
  by_cases hc1 : ∃ op ∈ P, op.key = k
  · -- A key of the pre-journal batch: the journal entry restores it and
    -- the trailing removals do not touch it.
    have hshape := fun (op : WOp) (hop : op ∈ P) =>
      blockChangesPrefix_keys hacc op hop
    rcases hc1 with ⟨op, hop, hkop⟩
    have hkshape : k = SKey.height ∨ k = SKey.power h ∨ ∃ a, k = SKey.account a := by
      rcases hshape op hop with h' | h' | ⟨a, h'⟩
      · exact Or.inl (hkop ▸ h' ▸ rfl)
      · rw [hnum] at h'
        exact Or.inr (Or.inl (hkop ▸ h' ▸ rfl))
      · exact Or.inr (Or.inr ⟨a, hkop ▸ h' ▸ rfl⟩)
    have hrestore : opsVal rb k (kget S' k) = kget S k :=
      opsVal_rollbackOfG_touched (kget S) ⟨op, hop, hkop⟩ _
    rw [hrestore]
    refine opsVal_untouched (fun o ho hk => ?_) _
    rcases List.mem_cons.1 ho with rfl | ho'
    · rcases hkshape with rfl | rfl | ⟨a, rfl⟩ <;> simp [WOp.key] at hk
    · rcases List.mem_cons.1 ho' with rfl | ho''
      · rcases hkshape with rfl | rfl | ⟨a, rfl⟩ <;> simp [WOp.key] at hk
      · rcases List.mem_cons.1 ho'' with rfl | ho'''
        · rcases hkshape with rfl | rfl | ⟨a, rfl⟩ <;> simp [WOp.key] at hk
        · exact absurd ho''' (List.not_mem_nil _)
  · -- Not a key of the pre-journal batch.
    have hrb_un : ∀ x, opsVal rb k x = x := fun x =>
      opsVal_rollbackOfG_untouched (kget S)
        (fun op hop hk => hc1 ⟨op, hop, hk⟩) x
    by_cases hcb : k = SKey.block h
    · subst hcb
      rw [hSk]
      rw [opsVal_prefix_untouched hacc (by simp) (by simp [hnum]) (by simp)]
      rw [hrb_un, hbK]
      simp [opsVal_cons, opsVal_nil, WOp.key, WOp.val?]
    · by_cases hcm : k = SKey.merkle h
      · subst hcm
        rw [hSk]
        rw [opsVal_prefix_untouched hacc (by simp) (by simp [hnum]) (by simp)]
        rw [hrb_un, hmK]
        simp [opsVal_cons, opsVal_nil, WOp.key, WOp.val?]
      · by_cases hcr : k = SKey.rollback h
        · subst hcr
          rw [hSk]
          rw [opsVal_prefix_untouched hacc (by simp) (by simp [hnum]) (by simp)]
          rw [hrb_un, hrK]
          simp [opsVal_cons, opsVal_nil, WOp.key, WOp.val?]
        · -- A key untouched by anything.
          have hP_un : opsVal P k (kget S k) = kget S k := by
            refine opsVal_untouched (fun op hop hk => hc1 ⟨op, hop, hk⟩) _
          rw [hSk, hP_un, hrb_un]
          have e1 : opsVal [WOp.put (.rollback h) (encOps rb)] k (kget S k) =
              kget S k := by
            refine opsVal_untouched (fun o ho hk => ?_) _
            rcases List.mem_cons.1 ho with rfl | ho'
            · exact hcr (hk ▸ rfl)
            · exact absurd ho' (List.not_mem_nil _)
          rw [e1]
          have e2 : opsVal [WOp.put (.block h) (encBlock b),
              WOp.put (.merkle h) (merkleRoot b.body)] k (kget S k) = kget S k := by
            refine opsVal_untouched (fun o ho hk => ?_) _
            rcases List.mem_cons.1 ho with rfl | ho'
            · exact hcb (hk ▸ rfl)
            · rcases List.mem_cons.1 ho' with rfl | ho''
              · exact hcm (hk ▸ rfl)
              · exact absurd ho'' (List.not_mem_nil _)
          rw [e2]
          refine opsVal_untouched (fun o ho hk => ?_) _
          rcases List.mem_cons.1 ho with rfl | ho'
          · exact hcb (hk ▸ rfl)
          · rcases List.mem_cons.1 ho' with rfl | ho''
            · exact hcm (hk ▸ rfl)
            · rcases List.mem_cons.1 ho'' with rfl | ho'''
              · exact hcr (hk ▸ rfl)
              · exact absurd ho''' (List.not_mem_nil _)

/-! ### Sequences of applies and rollbacks -/

theorem opsVal_single_put_ne {k1 : SKey} {v : Val} {k : SKey} (h : k1 ≠ k)
    (x : Option Val) : opsVal [WOp.put k1 v] k x = x := by
  simp [opsVal_cons, opsVal_nil, WOp.key, WOp.val?, h]

theorem opsVal_pair_put_ne {k1 k2 : SKey} {v1 v2 : Val} {k : SKey}
    (h1 : k1 ≠ k) (h2 : k2 ≠ k) (x : Option Val) :
    opsVal [WOp.put k1 v1, WOp.put k2 v2] k x = x := by
  simp [opsVal_cons, opsVal_nil, WOp.key, WOp.val?, h1, h2]

/-- A successful strict `apply_block` with a height-matching number on a
clean store stays sorted, bumps the height by one and stays clean above
the new height. -/
theorem applyBlock_preserves {S S' : Store} {b : Blk} {h : Nat}
    (hS : SSorted S) (hh : getHeight S = .ok h) (hlt : h + 1 < 2 ^ 64)
    (hnum : b.header.number = h) (hclean : cleanAbove S h)
    (happ : applyBlock S b false = .ok S') :
    SSorted S' ∧ getHeight S' = .ok (h + 1) ∧ cleanAbove S' (h + 1) := by
  rcases applyBlock_ok_elim happ with ⟨h', key, fork, cp, hh', hf, hp, hS'⟩
  rw [hh] at hh'
  injection hh' with hh'
  subst hh'
  have hacc : opsAccount (toOps fork) :=
    toOps_account (applyTxsFork_ovAccount
      (fun kv hkv => absurd hkv (List.not_mem_nil kv)) hf)
  simp only [blockChangesAll, KV_get_store_fn, KV_update_store] at hS'
  rw [hnum] at hS'
  have hsorted : SSorted S' := by rw [hS']; exact ssorted_kupdate hS _
  have hheight : kget S' .height = some (encNat ((h + 1) % 2 ^ 64)) := by
    rw [hS', kget_kupdate, opsVal_append, opsVal_append]
    rw [opsVal_prefix_height hacc]
    simp [opsVal_cons, opsVal_nil, WOp.key, WOp.val?]
  have hmod : (h + 1) % 2 ^ 64 = h + 1 := Nat.mod_eq_of_lt hlt
  refine ⟨hsorted, ?_, ?_⟩
  · simp only [getHeight, KV_get_store, hheight, hmod, decNat_encNat hlt]
  · intro j hj
    have hne : h ≠ j := by omega
    refine ⟨?_, ?_, ?_⟩
    · rw [hS', kget_kupdate, opsVal_append, opsVal_append,
        opsVal_prefix_untouched hacc (by simp) (by simp [hnum]) (by simp),
        opsVal_single_put_ne (by simp),
        opsVal_pair_put_ne (by simp [hne]) (by simp)]
      exact (hclean j (by omega)).1
    · rw [hS', kget_kupdate, opsVal_append, opsVal_append,
        opsVal_prefix_untouched hacc (by simp) (by simp [hnum]) (by simp),
        opsVal_single_put_ne (by simp),
        opsVal_pair_put_ne (by simp) (by simp [hne])]
      exact (hclean j (by omega)).2.1
    · rw [hS', kget_kupdate, opsVal_append, opsVal_append,
        opsVal_prefix_untouched hacc (by simp) (by simp [hnum]) (by simp),
        opsVal_single_put_ne (by simp [hne]),
        opsVal_pair_put_ne (by simp) (by simp)]
      exact (hclean j (by omega)).2.2

theorem rollbackN_succ : ∀ (n : Nat) (s : Store),
    rollbackN (n + 1) s = do let x ← rollbackN n s; rollbackBlock x
  | 0, s => by
    show (do let x ← rollbackBlock s; rollbackN 0 x) = _
    cases hr : rollbackBlock s <;> simp [rollbackN, hr]
  | n + 1, s => by
    show (do let x ← rollbackBlock s; rollbackN (n + 1) x) = _
    cases hr : rollbackBlock s with
    | error e => simp [rollbackN, hr]
    | ok y =>
      simp only [rollbackN, hr, ebind_ok]
      exact rollbackN_succ n y

/-! ### Shapes of successful `rollback_block` and `extend` -/

theorem rollbackBlock_ok_shape {S S' : Store}
    (h : rollbackBlock S = .ok S') : ∃ ops, S' = kupdate S ops := by
  unfold rollbackBlock at h
  cases hh : getHeight S with
  | error e => rw [hh] at h; exact absurd h (by simp)
  | ok h0 =>
    rw [hh] at h
    simp only [ebind_ok] at h
    split at h
    · split at h
      · injection h with h
        exact ⟨_, h.symm⟩
      · exact absurd h (by simp)
    · exact absurd h (by simp)

theorem extend_eval {S : Store} {frm : Nat} {blocks : List Blk} {h : Nat}
    {T T' : Mirror Store}
    (hh : getHeight S = .ok h) (h0 : ¬ frm = 0) (hle : ¬ frm > h)
    (hrw : rollbackWhile (h + 1) frm (mkMirror S) = .ok T)
    (hab : applyBlocks blocks T = .ok T') :
    extend S frm blocks = .ok (kupdate S (toOps T')) := by
  unfold extend
  rw [hh]
  simp only [ebind_ok]
  rw [if_neg h0, if_neg hle, hrw]
  simp only [ebind_ok]
  rw [hab]
  simp only [ebind_ok]
  rfl

theorem extend_ok_shape {S S' : Store} {frm : Nat} {blocks : List Blk}
    (h : extend S frm blocks = .ok S') : ∃ ops, S' = kupdate S ops := by
  unfold extend at h
  cases hh : getHeight S with
  | error e => rw [hh] at h; exact absurd h (by simp)
  | ok h0 =>
    rw [hh] at h
    simp only [ebind_ok] at h
    by_cases hz : frm = 0
    · rw [if_pos hz] at h; exact absurd h (by simp)
    · rw [if_neg hz] at h
      by_cases hgt : frm > h0
      · rw [if_pos hgt] at h; exact absurd h (by simp)
      · rw [if_neg hgt] at h
        cases hrw : rollbackWhile (h0 + 1) frm (mkMirror S) with
        | error e => rw [hrw] at h; exact absurd h (by simp)
        | ok T =>
          rw [hrw] at h
          simp only [ebind_ok] at h
          cases hab : applyBlocks blocks T with
          | error e => rw [hab] at h; exact absurd h (by simp)
          | ok T' =>
            rw [hab] at h
            simp only [ebind_ok] at h
            injection h with h
            exact ⟨_, h.symm⟩

/-! ## The claims -/

/-- C8: for every address whose account key is absent from the store,
`get_account` returns `{balance: TOTAL_SUPPLY, nonce: 0}` for the
Treasury and `{balance: 0, nonce: 0}` otherwise; `get_account` is a pure
read and writes nothing. -/
theorem C8_implicit_account_synthesis {S : Store} {addr : Address}
    (h : kget S (.account addr) = none) :
    getAccount S addr =
      .ok ⟨if addr = .treasury then TOTAL_SUPPLY else 0, 0⟩ := by
  simp only [getAccount, KV_get_store, h]

/-- Witness for C8 at the empty store. -/
theorem C8_witness :
    getAccount ([] : Store) .treasury = .ok ⟨TOTAL_SUPPLY, 0⟩ ∧
    getAccount ([] : Store) (.publicKey 3) = .ok ⟨0, 0⟩ :=
  ⟨C8_implicit_account_synthesis rfl, C8_implicit_account_synthesis rfl⟩

/-- C9: `pow_key(i)` returns the fixed `POW_BASE_KEY` for `i < 64`, and
otherwise the header hash of the block at
`((i - POW_KEY_CHANGE_DELAY) / POW_KEY_CHANGE_INTERVAL) *
POW_KEY_CHANGE_INTERVAL`, failing exactly when `get_block` fails on
that reference (block not stored). -/
theorem C9_pow_key_schedule (S : Store) (i : Nat) :
    (i < 64 → powKey S i = .ok POW_BASE_KEY) ∧
    (64 ≤ i → powKey S i =
      (getBlock S ((i - POW_KEY_CHANGE_DELAY) / POW_KEY_CHANGE_INTERVAL *
        POW_KEY_CHANGE_INTERVAL)).map (fun b => headerHash b.header)) := by
  constructor
  · intro h
    unfold powKey
    rw [if_pos h]
  · intro h
    unfold powKey
    rw [if_neg (by omega)]

/-- Witness for C9 at indices 0 and 64 on the empty store. -/
theorem C9_witness :
    powKey ([] : Store) 0 = .ok POW_BASE_KEY ∧
    powKey ([] : Store) 64 = .error .BlockNotFound := by
  refine ⟨(C9_pow_key_schedule [] 0).1 (by decide), ?_⟩
  rw [(C9_pow_key_schedule [] 64).2 (by decide)]
  rfl

/-- C5 (code bug): `apply_tx` computes `amount + fee` and the
destination credit with wrapping (release-mode) `u64` arithmetic, not
checked arithmetic: the transaction `overflowTx`, whose
`amount + fee = 2^64 + 1` wraps to 1, is accepted and applied with
wrapped values instead of being rejected as a protocol violation. -/
theorem C5_overflow_accepted :
    2 ^ 64 ≤ (2 ^ 64 - 1) + 2 ∧
    applyTx ([] : Store) overflowTx =
      .ok [(.account .treasury, encAccount ⟨TOTAL_SUPPLY - 1, 1⟩),
           (.account (.publicKey 1), encAccount ⟨2 ^ 64 - 1, 0⟩)] :=
  ⟨by decide, by rfl⟩

/-- C1 counterexample: one committed `apply_tx` with `fee = 5` leaves
the sum of balances at `TOTAL_SUPPLY - 5`, not `TOTAL_SUPPLY` — fees
are debited but never credited anywhere. -/
theorem C1_counterexample :
    (applyTx ([] : Store) feeTx).toOption.map storeSupply =
      some (TOTAL_SUPPLY - 5) ∧
    TOTAL_SUPPLY - 5 ≠ TOTAL_SUPPLY :=
  ⟨by rfl, by decide⟩

/-- C1 (amended): every committed `apply_tx` lowers the spec-side
balance sum by exactly the transaction fee (no-overflow side
conditions); conservation of `TOTAL_SUPPLY` therefore holds exactly as
long as all committed transactions carry zero fee. -/
theorem C1_fee_leakage {S S' : Store} {tx : Transaction} {dst : Address}
    {amount : Nat}
    (hS : SSorted S) (hd : tx.data = .regularSend dst amount)
    (hw : amount + tx.fee < 2 ^ 64)
    (hdst : ∀ acc, getAccount S dst = .ok acc → acc.balance + amount < 2 ^ 64)
    (happ : applyTx S tx = .ok S') :
    storeSupply S' + tx.fee = storeSupply S := by
  rcases applyTx_ok_elim hd happ with ⟨hv, accSrc, hacc, hn, hb, hcase⟩
  have hbnds := getAccount_ok_bounds hacc
  have hmodAF : (amount + tx.fee) % 2 ^ 64 = amount + tx.fee :=
    Nat.mod_eq_of_lt hw
  rw [hmodAF] at hb
  push_neg at hb
  rcases hcase with ⟨hself, hS'⟩ | ⟨hne, accDst, hacc2, hS'⟩
  · have hfee : tx.fee % 2 ^ 64 = tx.fee := Nat.mod_eq_of_lt (by omega)
    have hbal' : (accSrc.balance + 2 ^ 64 - tx.fee % 2 ^ 64) % 2 ^ 64 =
        accSrc.balance - tx.fee := by
      rw [hfee]
      have h1 : accSrc.balance + 2 ^ 64 - tx.fee =
          (accSrc.balance - tx.fee) + 2 ^ 64 := by omega
      rw [h1, Nat.add_mod_right, Nat.mod_eq_of_lt (by omega)]
    have hput : storeSupply (sput S (.account tx.src)
          (encAccount ⟨(accSrc.balance + 2 ^ 64 - tx.fee % 2 ^ 64) % 2 ^ 64,
            (accSrc.nonce + 1) % 2 ^ 32⟩)) + accSrc.balance =
        storeSupply S +
          (accSrc.balance + 2 ^ 64 - tx.fee % 2 ^ 64) % 2 ^ 64 :=
      storeSupply_put hS hacc (Nat.mod_lt _ (by decide)) (Nat.mod_lt _ (by decide))
    rw [hS', kupdate_single]
    show storeSupply (sput S _ _) + tx.fee = storeSupply S
    rw [hbal'] at hput ⊢
    omega
  · have hbal' : (accSrc.balance + 2 ^ 64 - (amount + tx.fee) % 2 ^ 64) % 2 ^ 64 =
        accSrc.balance - (amount + tx.fee) := by
      rw [hmodAF]
      have h1 : accSrc.balance + 2 ^ 64 - (amount + tx.fee) =
          (accSrc.balance - (amount + tx.fee)) + 2 ^ 64 := by omega
      rw [h1, Nat.add_mod_right, Nat.mod_eq_of_lt (by omega)]
    have hdstlt := hdst accDst hacc2
    have hdmod : (accDst.balance + amount) % 2 ^ 64 = accDst.balance + amount :=
      Nat.mod_eq_of_lt hdstlt
    have hput1 : storeSupply (sput S (.account tx.src)
          (encAccount ⟨(accSrc.balance + 2 ^ 64 - (amount + tx.fee) % 2 ^ 64) % 2 ^ 64,
            (accSrc.nonce + 1) % 2 ^ 32⟩)) + accSrc.balance =
        storeSupply S +
          (accSrc.balance + 2 ^ 64 - (amount + tx.fee) % 2 ^ 64) % 2 ^ 64 :=
      storeSupply_put hS hacc (Nat.mod_lt _ (by decide)) (Nat.mod_lt _ (by decide))
    have hS1sorted : SSorted (sput S (.account tx.src)
        (encAccount ⟨(accSrc.balance + 2 ^ 64 - (amount + tx.fee) % 2 ^ 64) % 2 ^ 64,
          (accSrc.nonce + 1) % 2 ^ 32⟩)) := ssorted_sput hS _ _
    have hacc2' : getAccount (sput S (.account tx.src)
        (encAccount ⟨(accSrc.balance + 2 ^ 64 - (amount + tx.fee) % 2 ^ 64) % 2 ^ 64,
          (accSrc.nonce + 1) % 2 ^ 32⟩)) dst = .ok accDst := by
      rw [getAccount_sput_other hne]
      exact hacc2
    have hput2 : storeSupply (sput (sput S (.account tx.src)
          (encAccount ⟨(accSrc.balance + 2 ^ 64 - (amount + tx.fee) % 2 ^ 64) % 2 ^ 64,
            (accSrc.nonce + 1) % 2 ^ 32⟩)) (.account dst)
          (encAccount ⟨(accDst.balance + amount) % 2 ^ 64, accDst.nonce⟩)) +
          accDst.balance =
        storeSupply (sput S (.account tx.src)
          (encAccount ⟨(accSrc.balance + 2 ^ 64 - (amount + tx.fee) % 2 ^ 64) % 2 ^ 64,
            (accSrc.nonce + 1) % 2 ^ 32⟩)) +
          (accDst.balance + amount) % 2 ^ 64 :=
      storeSupply_put hS1sorted hacc2'
        (Nat.mod_lt _ (by decide)) (getAccount_ok_bounds hacc2).2
    rw [hS', kupdate_pair]
    show storeSupply (sput (sput S _ _) _ _) + tx.fee = storeSupply S
    rw [hbal'] at hput1 hput2 ⊢
    rw [hdmod] at hput2 ⊢
    omega

/-- Witness for the amended C1: the `feeTx` commit at the empty store. -/
theorem C1_witness :
    storeSupply [(.account .treasury, encAccount ⟨TOTAL_SUPPLY - 105, 1⟩),
      (.account (.publicKey 7), encAccount ⟨100, 0⟩)] + 5 =
      storeSupply ([] : Store) :=
  @C1_fee_leakage []
    [(.account .treasury, encAccount ⟨TOTAL_SUPPLY - 105, 1⟩),
     (.account (.publicKey 7), encAccount ⟨100, 0⟩)]
    feeTx (.publicKey 7) 100 (by decide) rfl (by decide)
    (fun acc h => by injection h with h; subst h; decide) (by rfl)

/-- C6: for a `RegularSend` with a valid signature (and a readable
source account below the `u32` nonce ceiling), `apply_tx` fails with
`InvalidTransactionNonce` — mutating nothing, as errors return before
the single `update` — iff `tx.nonce` differs from the source nonce plus
one; on success the stored source nonce is exactly the old nonce plus
one. -/
theorem C6_nonce_gate {S : Store} {tx : Transaction} {dst : Address}
    {amount : Nat} {accSrc : Account}
    (hd : tx.data = .regularSend dst amount)
    (hv : verifySignature tx = true)
    (hacc : getAccount S tx.src = .ok accSrc)
    (hn32 : accSrc.nonce + 1 < 2 ^ 32) :
    (applyTx S tx = .error .InvalidTransactionNonce ↔
      tx.nonce ≠ accSrc.nonce + 1) ∧
    (∀ S', applyTx S tx = .ok S' →
      (getAccount S' tx.src).map (fun a => a.nonce) = .ok (accSrc.nonce + 1)) := by
  have hmod : (accSrc.nonce + 1) % 2 ^ 32 = accSrc.nonce + 1 :=
    Nat.mod_eq_of_lt hn32
  constructor
  · constructor
    · intro herr hcontra
      exact applyTx_no_nonce_err hd hv hacc (by rw [hmod]; exact hcontra) herr
    · intro hne
      exact applyTx_nonce_err hd hv hacc (by rw [hmod]; exact hne)
  · intro S' happ
    rcases applyTx_ok_elim hd happ with ⟨_, accSrc', hacc', hn', hb', hcase⟩
    rw [hacc] at hacc'
    injection hacc' with he
    subst he
    rcases hcase with ⟨hself, hS'⟩ | ⟨hne, accDst, hacc2, hS'⟩
    · rw [hS', kupdate_single]
      have h2 := @getAccount_sput_self S tx.src
        ⟨(accSrc.balance + 2 ^ 64 - tx.fee % 2 ^ 64) % 2 ^ 64,
          (accSrc.nonce + 1) % 2 ^ 32⟩ (mod64_lt _) (mod32_lt _)
      rw [show applyOp S (WOp.put (.account tx.src)
          (encAccount ⟨(accSrc.balance + 2 ^ 64 - tx.fee % 2 ^ 64) % 2 ^ 64,
            (accSrc.nonce + 1) % 2 ^ 32⟩)) =
          sput S (.account tx.src)
          (encAccount ⟨(accSrc.balance + 2 ^ 64 - tx.fee % 2 ^ 64) % 2 ^ 64,
            (accSrc.nonce + 1) % 2 ^ 32⟩) from rfl, h2, hmod]
      rfl
    · rw [hS', kupdate_pair]
      have hso : getAccount (applyOp (applyOp S
          (WOp.put (.account tx.src)
            (encAccount ⟨(accSrc.balance + 2 ^ 64 - (amount + tx.fee) % 2 ^ 64) % 2 ^ 64,
              (accSrc.nonce + 1) % 2 ^ 32⟩)))
          (WOp.put (.account dst)
            (encAccount ⟨(accDst.balance + amount) % 2 ^ 64, accDst.nonce⟩)))
          tx.src =
          getAccount (applyOp S
          (WOp.put (.account tx.src)
            (encAccount ⟨(accSrc.balance + 2 ^ 64 - (amount + tx.fee) % 2 ^ 64) % 2 ^ 64,
              (accSrc.nonce + 1) % 2 ^ 32⟩))) tx.src :=
        getAccount_sput_other (fun he => hne he.symm)
      rw [hso]
      have h2 := @getAccount_sput_self S tx.src
        ⟨(accSrc.balance + 2 ^ 64 - (amount + tx.fee) % 2 ^ 64) % 2 ^ 64,
          (accSrc.nonce + 1) % 2 ^ 32⟩ (mod64_lt _) (mod32_lt _)
      rw [show applyOp S (WOp.put (.account tx.src)
          (encAccount ⟨(accSrc.balance + 2 ^ 64 - (amount + tx.fee) % 2 ^ 64) % 2 ^ 64,
            (accSrc.nonce + 1) % 2 ^ 32⟩)) =
          sput S (.account tx.src)
          (encAccount ⟨(accSrc.balance + 2 ^ 64 - (amount + tx.fee) % 2 ^ 64) % 2 ^ 64,
            (accSrc.nonce + 1) % 2 ^ 32⟩) from rfl, h2, hmod]
      rfl

/-- Witness for C6: a nonce gap is rejected with
`InvalidTransactionNonce`; the correct nonce is not. -/
theorem C6_witness :
    applyTx ([] : Store) gapTx = .error .InvalidTransactionNonce ∧
    applyTx ([] : Store) feeTx ≠ .error .InvalidTransactionNonce := by
  have h1 := @C6_nonce_gate [] gapTx (.publicKey 7) 100 ⟨TOTAL_SUPPLY, 0⟩
    rfl rfl (by rfl) (by decide)
  have h2 := @C6_nonce_gate [] feeTx (.publicKey 7) 100 ⟨TOTAL_SUPPLY, 0⟩
    rfl rfl (by rfl) (by decide)
  exact ⟨h1.1.2 (by decide), fun hc => (h2.1.1 hc) (by decide)⟩

/-- C7: a self-transfer (`dst == src`) with a valid signature, correct
nonce and sufficient balance succeeds; the source loses exactly the fee
(the amount is not moved), its nonce advances by one, and every other
account reads back unchanged. -/
theorem C7_self_transfer {S : Store} {tx : Transaction} {amount : Nat}
    {accSrc : Account}
    (hd : tx.data = .regularSend tx.src amount)
    (hv : verifySignature tx = true)
    (hacc : getAccount S tx.src = .ok accSrc)
    (hn : tx.nonce = accSrc.nonce + 1) (hn32 : accSrc.nonce + 1 < 2 ^ 32)
    (hbal : amount + tx.fee ≤ accSrc.balance) (hw : amount + tx.fee < 2 ^ 64) :
    ∃ S', applyTx S tx = .ok S' ∧
      getAccount S' tx.src = .ok ⟨accSrc.balance - tx.fee, accSrc.nonce + 1⟩ ∧
      ∀ a, a ≠ tx.src → getAccount S' a = getAccount S a := by
  have hbnds := getAccount_ok_bounds hacc
  have hmod32 : (accSrc.nonce + 1) % 2 ^ 32 = accSrc.nonce + 1 :=
    Nat.mod_eq_of_lt hn32
  have hmodAF : (amount + tx.fee) % 2 ^ 64 = amount + tx.fee :=
    Nat.mod_eq_of_lt hw
  have hfee : tx.fee % 2 ^ 64 = tx.fee := Nat.mod_eq_of_lt (by omega)
  have hb' : ¬ accSrc.balance < (amount + tx.fee) % 2 ^ 64 := by
    rw [hmodAF]; omega
  have happ := applyTx_ok_self hd hv hacc (by rw [hmod32]; exact hn) hb'
  have hbal' : (accSrc.balance + 2 ^ 64 - tx.fee % 2 ^ 64) % 2 ^ 64 =
      accSrc.balance - tx.fee := by
    rw [hfee]
    have h1 : accSrc.balance + 2 ^ 64 - tx.fee =
        (accSrc.balance - tx.fee) + 2 ^ 64 := by omega
    rw [h1, Nat.add_mod_right, Nat.mod_eq_of_lt (by omega)]
  refine ⟨_, happ, ?_, ?_⟩
  · rw [kupdate_single]
    have h2 := @getAccount_sput_self S tx.src
      ⟨(accSrc.balance + 2 ^ 64 - tx.fee % 2 ^ 64) % 2 ^ 64,
        (accSrc.nonce + 1) % 2 ^ 32⟩ (mod64_lt _) (mod32_lt _)
    rw [show applyOp S (WOp.put (.account tx.src)
        (encAccount ⟨(accSrc.balance + 2 ^ 64 - tx.fee % 2 ^ 64) % 2 ^ 64,
          (accSrc.nonce + 1) % 2 ^ 32⟩)) =
        sput S (.account tx.src)
        (encAccount ⟨(accSrc.balance + 2 ^ 64 - tx.fee % 2 ^ 64) % 2 ^ 64,
          (accSrc.nonce + 1) % 2 ^ 32⟩) from rfl, h2, hmod32, hbal']
  · intro a ha
    rw [kupdate_single]
    exact getAccount_sput_other ha

/-- Witness for C7: a Treasury self-send of 100 with fee 5 consumes
only the fee and touches no other account. -/
theorem C7_witness :
    applyTx ([] : Store) selfTx =
      .ok [(.account .treasury, encAccount ⟨TOTAL_SUPPLY - 5, 1⟩)] ∧
    getAccount ([(.account .treasury, encAccount ⟨TOTAL_SUPPLY - 5, 1⟩)] : Store)
      (.publicKey 9) = getAccount ([] : Store) (.publicKey 9) := by
  obtain ⟨S', h1, _h2, h3⟩ := @C7_self_transfer [] selfTx 100 ⟨TOTAL_SUPPLY, 0⟩
    rfl rfl (by rfl) rfl (by decide) (by decide) (by decide)
  have hlit : S' = [(.account .treasury, encAccount ⟨TOTAL_SUPPLY - 5, 1⟩)] := by
    have heval : applyTx ([] : Store) selfTx =
        .ok [(.account .treasury, encAccount ⟨TOTAL_SUPPLY - 5, 1⟩)] := by rfl
    rw [h1] at heval
    injection heval
  subst hlit
  exact ⟨h1, h3 (.publicKey 9) (by decide)⟩

/-- C3: each mutating entry point (`apply_block`, `extend`,
`rollback_block`) either returns `Ok` having committed its whole effect
as a single atomic `update` batch applied to the pre-call store, or
returns `Err`; on the error paths the single `update` is never reached,
so the pre-call store is untouched — speculative writes live only in
the RAM fork. -/
theorem C3_atomic_commits (S : Store) (b : Blk) (d : Bool) (frm : Nat)
    (blocks : List Blk) :
    ((∃ ops, applyBlock S b d = .ok (kupdate S ops)) ∨
      (∃ e, applyBlock S b d = .error e)) ∧
    ((∃ ops, extend S frm blocks = .ok (kupdate S ops)) ∨
      (∃ e, extend S frm blocks = .error e)) ∧
    ((∃ ops, rollbackBlock S = .ok (kupdate S ops)) ∨
      (∃ e, rollbackBlock S = .error e)) := by
  refine ⟨?_, ?_, ?_⟩
  · cases hres : applyBlock S b d with
    | ok S' =>
      rcases applyBlock_ok_elim hres with ⟨h, key, fork, cp, _, _, _, hS'⟩
      exact Or.inl ⟨_, by rw [hS']⟩
    | error e => exact Or.inr ⟨e, rfl⟩
  · cases hres : extend S frm blocks with
    | ok S' =>
      rcases extend_ok_shape hres with ⟨ops, hS'⟩
      exact Or.inl ⟨ops, by rw [hS']⟩
    | error e => exact Or.inr ⟨e, rfl⟩
  · cases hres : rollbackBlock S with
    | ok S' =>
      rcases rollbackBlock_ok_shape hres with ⟨ops, hS'⟩
      exact Or.inl ⟨ops, by rw [hS']⟩
    | error e => exact Or.inr ⟨e, rfl⟩

/-- C10: `extend` performs no cumulative-power comparison: with
`0 < from ≤ height`, it commits whenever the rollback loop and the
strict application of the offered blocks succeed on the RAM fork — no
power hypothesis appears; in particular `extend(1, [])` on the concrete
height-2 chain succeeds, truncating it to height 1 and strictly
lowering cumulative power from 9 to 5. -/
theorem C10_extend_no_power_check :
    (∀ (S : Store) (frm : Nat) (blocks : List Blk) (h : Nat)
        (T T' : Mirror Store),
      getHeight S = .ok h → 0 < frm → frm ≤ h →
      rollbackWhile (h + 1) frm (mkMirror S) = .ok T →
      applyBlocks blocks T = .ok T' →
      extend S frm blocks = .ok (kupdate S (toOps T'))) ∧
    extend chainStore2 1 [] = .ok chainStore2Truncated ∧
    getPower chainStore2 = .ok 9 ∧
    getPower chainStore2Truncated = .ok 5 := by
  refine ⟨?_, by rfl, by rfl, by rfl⟩
  intro S frm blocks h T T' hh h0 hle hrw hab
  exact extend_eval hh (by omega) (by omega) hrw hab

/-- Witness for C10's quantified part at the concrete height-2 chain. -/
theorem C10_witness :
    extend chainStore2 1 [] = .ok (kupdate chainStore2 (toOps chainStore2Fork)) :=
  C10_extend_no_power_check.1 chainStore2 1 [] 2 chainStore2Fork
    chainStore2Fork rfl (by decide) (by decide) (by rfl) (by rfl)

/-- The header loop of `will_extend` computes exactly the spec-side
accumulated power whenever every offered header passes the spec-side
checks. -/
theorem willExtendLoop_spec {S : Store} :
    ∀ (hs : List Header) (last : Header) (np : Nat),
    last.number + 1 < 2 ^ 64 → (∀ hd ∈ hs, hd.number + 1 < 2 ^ 64) →
    specHeadersOk S last hs = true →
    willExtendLoop S hs last np = .ok (specPowerFold S np hs) := by
  intro hs
  induction hs with
  | nil => intro last np _ _ _; rfl
  | cons hd tl ih =>
    intro last np hlast hall hok
    simp only [specHeadersOk, Bool.and_eq_true] at hok
    obtain ⟨hok1, hok2⟩ := hok
    unfold specHeaderOk at hok1
    cases hk : powKey S hd.number with
    | error e => rw [hk] at hok1; simp at hok1
    | ok key =>
      rw [hk] at hok1
      simp only [Bool.and_eq_true, beq_iff_eq] at hok1
      obtain ⟨⟨hmt, hnum⟩, hph⟩ := hok1
      have hmod : (last.number + 1) % 2 ^ 64 = last.number + 1 :=
        Nat.mod_eq_of_lt hlast
      unfold willExtendLoop
      rw [hk]
      simp only [ebind_ok]
      rw [if_neg (by simp [hmt]), if_neg (by rw [hmod]; simp [hnum]),
        if_neg (by simp [hph])]
      have hfold : specPowerFold S np (hd :: tl) =
          specPowerFold S ((np + headerPower hd key) % 2 ^ 64) tl := by
        simp only [specPowerFold, hk]
      rw [hfold]
      exact ih hd ((np + headerPower hd key) % 2 ^ 64)
        (hall hd (List.mem_cons_self _ _))
        (fun x hx => hall x (List.mem_cons_of_mem _ hx)) hok2

/-- C4: `will_extend` is a pure read (its embedding returns no store);
given a readable power and height it rejects `from = 0` with
`ExtendFromGenesis` and `from > height` with `ExtendFromFuture`, and
for every header list passing the per-header PoW, number-succession and
parent-hash checks it returns exactly whether `power_{from-1}` plus the
accumulated power of the offered headers exceeds the current cumulative
power. -/
theorem C4_will_extend {S : Store} {frm h cp : Nat} (hs : List Header)
    (hcp : getPower S = .ok cp) (hh : getHeight S = .ok h) :
    (willExtend S 0 hs = .error .ExtendFromGenesis) ∧
    (0 < frm → h < frm → willExtend S frm hs = .error .ExtendFromFuture) ∧
    (∀ v p0 lb, 0 < frm → frm ≤ h →
      kget S (.power (frm - 1)) = some v → decNat v = some p0 →
      getBlock S (frm - 1) = .ok lb →
      lb.header.number + 1 < 2 ^ 64 → (∀ hd ∈ hs, hd.number + 1 < 2 ^ 64) →
      specHeadersOk S lb.header hs = true →
      willExtend S frm hs = .ok (decide (specPowerFold S p0 hs > cp))) := by
  refine ⟨?_, ?_, ?_⟩
  · unfold willExtend
    rw [hcp]
    simp only [ebind_ok]
    rw [if_pos trivial]
  · intro h0 hlt
    unfold willExtend
    rw [hcp]
    simp only [ebind_ok]
    rw [if_neg (by omega), hh]
    simp only [ebind_ok]
    rw [if_pos (by omega)]
  · intro v p0 lb h0 hle hv hdec hlb hnum hall hok
    unfold willExtend
    rw [hcp]
    simp only [ebind_ok]
    rw [if_neg (by omega), hh]
    simp only [ebind_ok]
    rw [if_neg (by omega)]
    simp only [KV_get_store, hv, hdec, ebind_ok]
    rw [hlb]
    simp only [ebind_ok]
    rw [willExtendLoop_spec hs lb.header p0 hnum hall hok]
    simp only [ebind_ok]

/-- Witness for C4 on the concrete height-1 chain with cumulative
power 5 and an empty offered-header list. -/
theorem C4_witness :
    willExtend chainStore1 0 [] = .error .ExtendFromGenesis ∧
    willExtend chainStore1 2 [] = .error .ExtendFromFuture ∧
    willExtend chainStore1 1 [] = .ok false := by
  have hA := @C4_will_extend chainStore1 2 1 5 [] rfl rfl
  have hB := @C4_will_extend chainStore1 1 1 5 [] rfl rfl
  refine ⟨hA.1, hA.2.1 (by decide) (by decide), ?_⟩
  have h3 := hB.2.2 (encNat 5) 5 genesisBlk (by decide) (by decide)
    (by rfl) (by rfl) (by rfl) (by decide) (by simp) (by rfl)
  rw [h3]
  rfl

/-- C2 (amended): provided each applied block's number equals the
height it is applied at and the start store holds no
`block`/`merkle`/`rollback` entry at or above its height — as is the
case for every store reachable from genesis — a successful sequence of
`apply_block` calls undone by the same number of `rollback_block` calls
restores the store byte-for-byte, every key included. -/
theorem C2_journal_roundtrip : ∀ {bs : List Blk} {S S' : Store} {h : Nat},
    SSorted S → getHeight S = .ok h → h + bs.length < 2 ^ 64 →
    (∀ i : Fin bs.length, (bs.get i).header.number = h + i.val) →
    cleanAbove S h →
    applyBlocks bs S = .ok S' →
    rollbackN bs.length S' = .ok S := by
  intro bs
  induction bs with
  | nil =>
    intro S S' h _ _ _ _ _ happ
    simp only [applyBlocks, Except.ok.injEq] at happ
    subst happ
    rfl
  | cons b bs ih =>
    intro S S' h hS hh hlt hnums hclean happ
    simp only [applyBlocks] at happ
    cases h1 : applyBlock S b false with
    | error e => rw [h1] at happ; exact absurd happ (by simp)
    | ok S1 =>
      rw [h1] at happ
      simp only [ebind_ok] at happ
      have hlen : (b :: bs).length = bs.length + 1 := rfl
      rw [hlen] at hlt
      have hnum0 : b.header.number = h := by
        have := hnums ⟨0, by simp⟩
        simpa using this
      have hcl := hclean h (le_refl h)
      obtain ⟨hS1, hh1, hclean1⟩ :=
        applyBlock_preserves hS hh (by omega) hnum0 hclean h1
      have hnums1 : ∀ i : Fin bs.length,
          (bs.get i).header.number = (h + 1) + i.val := by
        intro i
        have hstep := hnums ⟨i.val + 1, by
          have := i.isLt
          simp only [hlen]
          omega⟩
        have hres : (bs.get i).header.number = h + (i.val + 1) := hstep
        rw [hres]
        omega
      have hIH := ih hS1 hh1 (by omega) hnums1 hclean1 happ
      show rollbackN (bs.length + 1) S' = .ok S
      rw [rollbackN_succ, hIH]
      simp only [ebind_ok]
      exact applyBlock_rollbackBlock_roundtrip hS hh (by omega) hnum0
        hcl.1 hcl.2.1 hcl.2.2 h1

/-- C2 counterexample: at height 0 `apply_block` does not validate the
block number; applying a block numbered 5 to the empty store succeeds
but stores its journal under `rollback_5`, so the immediate
`rollback_block` (which reads `rollback_0`) fails with `Inconsistency`
instead of restoring the store. -/
theorem C2_counterexample :
    (applyBlock ([] : Store) blkNum5 false).toOption.map rollbackBlock =
      some (.error .Inconsistency) := by rfl

/-- Witness for the amended C2: applying the genesis-shaped block to
the empty store and rolling it back restores the empty store exactly. -/
theorem C2_witness : rollbackN 1 genesisStore = .ok ([] : Store) :=
  @C2_journal_roundtrip [genesisBlk] [] genesisStore 0
    (by decide) rfl (by decide) (by decide)
    (fun j _ => ⟨rfl, rfl, rfl⟩) (by rfl)

end Bazuka
